import Mathlib

/-!
Verification development for the pk2 archive library.

This file gives a shallow embedding of the library's core data model and
operations, translated from the Rust sources:
  * `src/archive/entry.rs`        — the `PackEntry` codec and accessors,
  * `src/archive/block_manager.rs`— chain loading and path resolution,
  * `src/archive.rs`              — the archive facade (open/create/delete).
Components whose source file is not part of the repository snapshot
(`constants.rs`, `block_chain.rs`, `header.rs`, `io.rs`, `error.rs`, the
Blowfish wrapper and the EUC-KR codec of the `encoding_rs` crate) are
modelled from the specification, as indicated by their doc comments.

Machine integers are modelled as `Nat`; all arithmetic that appears stays far
below 2^64 overflow, and `u64` fields only ever hold values produced by the
library itself.  Fallible operations return `Except Error`.  The host file is
modelled at entry granularity (a map from absolute byte offset to the entry
record written there); the Blowfish envelope is transparent at this
granularity (spec 4.H: a 128-byte entry is a whole number of ECB blocks).
-/

/-- Modelled from the spec: error taxonomy of `error.rs` (spec section 7). -/
inductive Error where
  | corruptedFile
  | unsupportedVersion
  | invalidKey
  | invalidPath
  | nonUnicodePath
  | notFound
  | alreadyExists
  | expectedFile
  | expectedDirectory
  | invalidChainIndex
  | io
deriving DecidableEq, Repr

/-- Modelled from the spec: constants of `constants.rs` (spec section 6).
The root chain starts right after the 256-byte header. -/
def PK2_ROOT_BLOCK : Nat := 256

/-- Modelled from the spec: a `PackEntry` record is 128 bytes on disk. -/
def PK2_FILE_ENTRY_SIZE : Nat := 128

/-- Modelled from the spec: a block holds 20 entries, 2560 bytes. -/
def PK2_BLOCK_SIZE : Nat := 2560

/-- Modelled from the spec: the 10-byte key-derivation salt (spec 4.A). -/
def PK2_SALT : List Nat := [0x03, 0xF8, 0xE4, 0x44, 0x88, 0x99, 0x3F, 0x64, 0xFE, 0x35]

/-- Modelled from the spec: the fixed 8-byte key-check plaintext (spec 4.A). -/
def PK2_CHECKSUM : List Nat := List.replicate 8 0xB7

/-- Modelled from the spec: number of checksum bytes stored and compared. -/
def PK2_CHECKSUM_STORED : Nat := 3

/-- Modelled from the spec: the 30-byte header signature (spec section 6). -/
def PK2_SIGNATURE : List Nat :=
  (String.toList "JoyMax File Manager!\n").map Char.toNat ++ List.replicate 9 0

/-- Modelled from the spec: the version constant (spec section 6). -/
def PK2_VERSION : Nat := 0x01000002

/-- `NonZeroU64::new`: zero becomes `none`. -/
def nzOpt (n : Nat) : Option Nat := if n = 0 then none else some n

/-- Windows FILETIME as two little-endian u32 halves (`FILETIME` in the
sources). -/
structure FILETIME where
  dwLowDateTime : Nat
  dwHighDateTime : Nat
deriving DecidableEq, Repr

/-- `PackEntry` from `entry.rs`: the tagged 128-byte record variant. -/
inductive PackEntry where
  | empty (next_block : Option Nat)
  | directory (name : String) (access_time create_time modify_time : FILETIME)
      (pos_children : Nat) (next_block : Option Nat)
  | file (name : String) (access_time create_time modify_time : FILETIME)
      (pos_data : Nat) (size : Nat) (next_block : Option Nat)
deriving DecidableEq, Repr

namespace PackEntry

/-- `PackEntry::next_block` (entry.rs:87): every variant carries the field. -/
def next_block : PackEntry → Option Nat
  | empty nb => nb
  | directory _ _ _ _ _ nb => nb
  | file _ _ _ _ _ _ nb => nb

/-- `PackEntry::clear` (entry.rs:78): tombstone the entry, preserving
`next_block`. -/
def clear (e : PackEntry) : PackEntry := empty e.next_block

/-- `PackEntry::set_next_block` (entry.rs:95): no-op on `Empty`; otherwise
store `NonZeroU64::new(nc)`. -/
def set_next_block : PackEntry → Nat → PackEntry
  | e@(empty _), _ => e
  | directory n a c m p _, nc => directory n a c m p (nzOpt nc)
  | file n a c m p s _, nc => file n a c m p s (nzOpt nc)

/-- `PackEntry::name` (entry.rs:104). -/
def name : PackEntry → Option String
  | empty _ => none
  | directory n _ _ _ _ _ => some n
  | file n _ _ _ _ _ _ => some n

/-- `PackEntry::is_empty` (entry.rs:112). -/
def is_empty : PackEntry → Bool
  | empty _ => true
  | _ => false

/-- `PackEntry::is_file` (entry.rs:120). -/
def is_file : PackEntry → Bool
  | file .. => true
  | _ => false

/-- `PackEntry::is_dir` (entry.rs:128). -/
def is_dir : PackEntry → Bool
  | directory .. => true
  | _ => false

/-- The `pos_children` of a directory entry (`DirectoryEntry::children_position`). -/
def pos_children? : PackEntry → Option Nat
  | directory _ _ _ _ pc _ => some pc
  | _ => none

/-- `PackEntry::new_directory` (entry.rs:44), with the creation time passed
explicitly instead of read from the clock. -/
def new_directory (n : String) (t : FILETIME) (pos_children : Nat)
    (nb : Option Nat) : PackEntry :=
  directory n t t t pos_children nb

/-- `PackEntry::new_file` (entry.rs:60), with the creation time passed
explicitly instead of read from the clock. -/
def new_file (n : String) (t : FILETIME) (pos_data : Nat) (size : Nat)
    (nb : Option Nat) : PackEntry :=
  file n t t t pos_data size nb

end PackEntry

/-- Little-endian encoding of `n` into `k` bytes. -/
def leBytes : Nat → Nat → List Nat
  | 0, _ => []
  | k + 1, n => n % 256 :: leBytes k (n / 256)

/-- Little-endian decoding of a byte list. -/
def fromLe (l : List Nat) : Nat := l.foldr (fun b acc => b + 256 * acc) 0

/-- `Vec::resize(n, 0)` on a byte vector: truncate or zero-pad to length `n`. -/
def resizeBytes (l : List Nat) (n : Nat) : List Nat :=
  l.take n ++ List.replicate (n - l.length) 0

/-- Modelled from the spec: EUC-KR encoding of one character
(`encoding_rs::EUC_KR`, a crate external to the repository).  ASCII
characters encode to their single byte; non-ASCII characters are modelled
abstractly as a two-byte sequence.  All names the theorems below evaluate
are ASCII, where this model is exact. -/
def eucKrEncodeChar (c : Char) : List Nat :=
  if c.toNat < 128 then [c.toNat] else [255, 255]

/-- Modelled from the spec: EUC-KR encoding of a name string. -/
def eucKrEncode (s : String) : List Nat :=
  (s.toList.map eucKrEncodeChar).flatten

/-- Modelled from the spec: lossy EUC-KR decoding, exact on ASCII bytes. -/
def eucKrDecode (bs : List Nat) : String :=
  String.mk (bs.map Char.ofNat)

/-- Consume exactly `n` bytes of input; `read_exact` fails (an I/O error)
when fewer are available. -/
def readBytes (n : Nat) (l : List Nat) : Except Error (List Nat × List Nat) :=
  if n ≤ l.length then .ok (l.take n, l.drop n) else .error .io

/-- Read a little-endian u32 from the byte stream. -/
def readU32 (l : List Nat) : Except Error (Nat × List Nat) :=
  (readBytes 4 l).map fun p => (fromLe p.1, p.2)

/-- Read a little-endian u64 from the byte stream. -/
def readU64 (l : List Nat) : Except Error (Nat × List Nat) :=
  (readBytes 8 l).map fun p => (fromLe p.1, p.2)

/-- Read a little-endian u16 from the byte stream. -/
def readU16 (l : List Nat) : Except Error (Nat × List Nat) :=
  (readBytes 2 l).map fun p => (fromLe p.1, p.2)

namespace PackEntry

/-- `PackEntry::from_reader` (entry.rs:138): decode one 128-byte record from
the byte stream, returning the entry and the remaining bytes.  A type byte
of 0 skips the next 127 bytes and yields `Empty` with `next_block = none`;
type 1/2 decode the full record; anything else is `CorruptedFile`. -/
def from_reader (l : List Nat) : Except Error (PackEntry × List Nat) :=
  match l with
  | [] => .error .io
  | ty :: rest =>
    if ty = 0 then
      match readBytes 127 rest with
      | .error e => .error e
      | .ok (_, r) => .ok (.empty none, r)
    else if ty = 1 ∨ ty = 2 then do
      let (nameBuf, r) ← readBytes 81 rest
      let n := eucKrDecode (nameBuf.takeWhile (· ≠ 0))
      let (al, r) ← readU32 r
      let (ah, r) ← readU32 r
      let (cl, r) ← readU32 r
      let (ch, r) ← readU32 r
      let (ml, r) ← readU32 r
      let (mh, r) ← readU32 r
      let (position, r) ← readU64 r
      let (size, r) ← readU32 r
      let (nb, r) ← readU64 r
      let (_, r) ← readU16 r
      if ty = 1 then
        .ok (.directory n ⟨al, ah⟩ ⟨cl, ch⟩ ⟨ml, mh⟩ position (nzOpt nb), r)
      else
        .ok (.file n ⟨al, ah⟩ ⟨cl, ch⟩ ⟨ml, mh⟩ position size (nzOpt nb), r)
    else .error .corruptedFile

/-- `PackEntry::to_writer` (entry.rs:199): encode the entry to bytes.  An
`Empty` entry writes 120 zero bytes followed by its `next_block` as a
little-endian u64.  Directory/File entries write the type byte, the EUC-KR
name resized (truncated or zero-padded) to 81 bytes, three FILETIMEs, the
position, the size (0 for directories), `next_block`, and 2 padding bytes.
Encoding never fails: overlong names are truncated by `Vec::resize`. -/
def to_writer : PackEntry → List Nat
  | empty nb =>
      List.replicate (PK2_FILE_ENTRY_SIZE - 8) 0 ++ leBytes 8 (nb.getD 0)
  | directory n a c m pos nb =>
      1 :: resizeBytes (eucKrEncode n) 81 ++
      leBytes 4 a.dwLowDateTime ++ leBytes 4 a.dwHighDateTime ++
      leBytes 4 c.dwLowDateTime ++ leBytes 4 c.dwHighDateTime ++
      leBytes 4 m.dwLowDateTime ++ leBytes 4 m.dwHighDateTime ++
      leBytes 8 pos ++ leBytes 4 0 ++ leBytes 8 (nb.getD 0) ++ leBytes 2 0
  | file n a c m pos size nb =>
      2 :: resizeBytes (eucKrEncode n) 81 ++
      leBytes 4 a.dwLowDateTime ++ leBytes 4 a.dwHighDateTime ++
      leBytes 4 c.dwLowDateTime ++ leBytes 4 c.dwHighDateTime ++
      leBytes 4 m.dwLowDateTime ++ leBytes 4 m.dwHighDateTime ++
      leBytes 8 pos ++ leBytes 4 size ++ leBytes 8 (nb.getD 0) ++ leBytes 2 0

end PackEntry

/-- `PackBlock` (modelled from the spec, 4.C: `block_chain.rs` is not in the
snapshot): 20 entries plus the absolute file offset the block was read from
or created at.  The 20-entry length is tracked as a well-formedness
predicate rather than a dependent field. -/
structure PackBlock where
  offset : Nat
  entries : List PackEntry
deriving DecidableEq, Repr

/-- Modelled from the spec: `PackBlock::new(offset)` — a fresh all-empty
block at the given offset. -/
def PackBlock.new (offset : Nat) : PackBlock :=
  ⟨offset, List.replicate 20 (PackEntry.empty none)⟩

/-- A block is well formed when it has exactly 20 entries. -/
def PackBlock.wf (b : PackBlock) : Prop := b.entries.length = 20

/-- The link to the next block, from `BlockManager::read_chain_from_file_at`
(block_manager.rs:44): `block.entries().rev().find_map(PackEntry::next_block)`
— the first entry, scanning in reverse, whose `next_block` is non-`none`,
regardless of the entry's variant. -/
def PackBlock.chain_next (b : PackBlock) : Option Nat :=
  b.entries.reverse.findSome? PackEntry.next_block

/-- `PackBlockChain` (modelled from the spec, 4.C): the ordered list of
blocks of one chain. -/
structure PackBlockChain where
  blocks : List PackBlock
deriving DecidableEq, Repr

namespace PackBlockChain

/-- Modelled from the spec (4.C): the chain's identity is the offset of its
first block (`chain_index()`); chains are never empty. -/
def chain_index (c : PackBlockChain) : Nat :=
  (c.blocks.head?.map PackBlock.offset).getD 0

/-- Modelled from the spec (4.C): `entries()` is the concatenation of all
blocks' entries in order. -/
def entries (c : PackBlockChain) : List PackEntry :=
  (c.blocks.map PackBlock.entries).flatten

/-- Modelled from the spec (4.C): `get(i)` over the flattened entry view. -/
def get (c : PackBlockChain) (i : Nat) : Option PackEntry :=
  c.entries[i]?

/-- Replace entry `i` of the flattened view inside the block list
(`get_mut(i)` followed by an assignment); indices past the end leave the
blocks unchanged, mirroring a failed `get_mut`. -/
def set_entry_blocks : List PackBlock → Nat → PackEntry → List PackBlock
  | [], _, _ => []
  | b :: bs, i, e =>
    if i < b.entries.length then { b with entries := b.entries.set i e } :: bs
    else b :: set_entry_blocks bs (i - b.entries.length) e

/-- Replace entry `i` of the flattened view of the chain. -/
def set_entry (c : PackBlockChain) (i : Nat) (e : PackEntry) : PackBlockChain :=
  ⟨set_entry_blocks c.blocks i e⟩

/-- Modelled from the spec (4.C): `file_offset_for_entry(i)` = offset of the
containing block plus `(i mod 20) * 128`. -/
def file_offset_for_entry (c : PackBlockChain) (i : Nat) : Option Nat :=
  (c.blocks[i / 20]?).map fun b => b.offset + (i % 20) * PK2_FILE_ENTRY_SIZE

/-- A chain is well formed when it has at least one block and every block
has exactly 20 entries. -/
def wf (c : PackBlockChain) : Prop :=
  c.blocks ≠ [] ∧ ∀ b ∈ c.blocks, b.wf

/-- Modelled from the spec (4.C): `find_block_chain_index_of(name)` scans
the entries for the first name match; a directory yields its
`pos_children`, a file yields `ExpectedDirectory`, no match yields
`NotFound`. -/
def find_block_chain_index_of (c : PackBlockChain) (n : String) : Except Error Nat :=
  match c.entries.find? (fun e => e.name = some n) with
  | some (.directory _ _ _ _ pc _) => .ok pc
  | some _ => .error .expectedDirectory
  | none => .error .notFound

end PackBlockChain

/-- The host file as a source of blocks: `ArchiveBuffer::read_block_at`
abstracted to a partial map from absolute offset to the decoded (and, when
encrypted, decrypted) block; `none` stands for a read or decode error. -/
def ReadFile : Type := Nat → Option PackBlock

/-- `BlockManager::read_chain_from_file_at` (block_manager.rs:37), with an
explicit fuel argument added on top of the source's unbounded `loop`:
the result is `none` when the loop is still running after `fuel`
iterations, `some none` when a block read fails, and `some (some blocks)`
when the loop breaks with a finished chain.  The Rust code itself has no
fuel — its own FIXME comment notes it "can potentially end up in a
neverending loop with a specially crafted file". -/
def read_chain_from_file_at (f : ReadFile) : Nat → Nat → Option (Option (List PackBlock))
  | 0, _ => none
  | fuel + 1, offset =>
    match f offset with
    | none => some none
    | some block =>
      match block.chain_next with
      | none => some (some [block])
      | some nc =>
        match read_chain_from_file_at f fuel nc with
        | none => none
        | some none => some none
        | some (some bs) => some (some (block :: bs))

/-- An `OsStr` path component payload: `to_str` is `some` exactly when the
component is convertible to Unicode. -/
structure OsStr where
  to_str : Option String
deriving DecidableEq, Repr

/-- A `std::path::Component` as produced by `Path::components()` after
`check_root` has stripped the leading `/` (archive.rs:346): normal names,
`.` and `..`.  `Prefix`/`RootDir` cannot occur after the strip
(archive.rs:300 `unreachable!`). -/
inductive Component where
  | normal (s : OsStr)
  | curDir
  | parentDir
deriving DecidableEq, Repr

/-- `Component::as_os_str().to_str()`: `.` and `..` are always convertible. -/
def Component.to_str : Component → Option String
  | normal s => s.to_str
  | curDir => some "."
  | parentDir => some ".."

/-- `Path::file_name().and_then(OsStr::to_str)` on a component list
(archive.rs:229): the final component must be a normal, convertible name. -/
def fileNameOf (path : List Component) : Option String :=
  match path.getLast? with
  | some (.normal s) => s.to_str
  | _ => none

/-- `entries().enumerate().find(|(_, entry)| entry.name() == name)`
(block_manager.rs:84): first entry whose (optional) name equals the
component's (optional) Unicode conversion. -/
def findNamed : List PackEntry → Option String → Option (Nat × PackEntry)
  | [], _ => none
  | e :: es, n =>
    if e.name = n then some (0, e)
    else (findNamed es n).map fun p => (p.1 + 1, p.2)

/-- `entries().position(PackEntry::is_empty)` (archive.rs:258). -/
def firstEmptyIdx : List PackEntry → Option Nat
  | [] => none
  | e :: es =>
    if e.is_empty then some 0 else (firstEmptyIdx es).map (· + 1)

/-- `entries().flat_map(PackEntry::as_directory).find(is_parent_link)
.map(children_position)` (archive.rs:294): the `pos_children` of the first
directory entry named `".."`. -/
def parentLinkPos : List PackEntry → Option Nat
  | [] => none
  | .directory n _ _ _ pc _ :: es =>
    if n = ".." then some pc else parentLinkPos es
  | _ :: es => parentLinkPos es

/-- The archive state: the `BlockManager`'s chain map (keyed by chain
index, modelling the identity-hashed `HashMap`), the host file length, and
the host file contents at entry granularity (absolute byte offset of a
written 128-byte record ↦ that record).  This packages the fields of `Pk2`
(archive.rs:18) that the block graph operations touch. -/
structure Pk2 where
  chains : Nat → Option PackBlockChain
  file_len : Nat
  disk : Nat → Option PackEntry

/-- `crate::io::write_entry_at` (modelled from the spec, 4.H): overwrite the
128-byte record at an absolute offset; the Blowfish envelope re-encrypts
exactly that slice, so neighbours are untouched. -/
def writeEntryAt (d : Nat → Option PackEntry) (off : Nat) (e : PackEntry) :
    Nat → Option PackEntry :=
  fun o => if o = off then some e else d o

/-- `crate::io::write_block` (modelled from the spec, 4.H): write the 20
consecutive records of a block starting at its offset. -/
def writeEntriesFrom (d : Nat → Option PackEntry) (off : Nat) :
    List PackEntry → Nat → Option PackEntry
  | [] => d
  | e :: es => writeEntriesFrom (writeEntryAt d off e) (off + PK2_FILE_ENTRY_SIZE) es

/-- Write a whole block to the host file at the block's own offset. -/
def writeBlock (d : Nat → Option PackEntry) (b : PackBlock) :
    Nat → Option PackEntry :=
  writeEntriesFrom d b.offset b.entries

/-- `BlockManager::resolve_path_to_block_chain_index_at`
(block_manager.rs:96): fold the components through the chain map, failing
with `NonUnicodePath` on a non-convertible component, `InvalidChainIndex`
on a dangling chain index, and whatever `find_block_chain_index_of`
produces otherwise. -/
def resolve_path_to_block_chain_index_at (s : Pk2) :
    Nat → List Component → Except Error Nat
  | cur, [] => .ok cur
  | cur, c :: cs =>
    match c.to_str with
    | none => .error .nonUnicodePath
    | some n =>
      match s.chains cur with
      | none => .error .invalidChainIndex
      | some chain =>
        match chain.find_block_chain_index_of n with
        | .error e => .error e
        | .ok i => resolve_path_to_block_chain_index_at s i cs

/-- `BlockManager::resolve_path_to_entry_and_parent` (block_manager.rs:71):
split off the final component, resolve the rest to the parent chain, then
scan that chain's entries for a name-equal match (`Option` name against
`Option` name).  An empty path yields `ok none`.  The Rust code indexes the
chain map with the parent index and would panic on a dangling index; that
panic cannot occur in the states the theorems below consider and is
rendered as `InvalidChainIndex` here. -/
def resolve_path_to_entry_and_parent (s : Pk2) (cur : Nat)
    (path : List Component) :
    Except Error (Option (PackBlockChain × Nat × PackEntry)) :=
  match path.getLast? with
  | none => .ok none
  | some c =>
    match resolve_path_to_block_chain_index_at s cur path.dropLast with
    | .error e => .error e
    | .ok parentIdx =>
      match s.chains parentIdx with
      | none => .error .invalidChainIndex
      | some parent =>
        match findNamed parent.entries c.to_str with
        | some (idx, e) => .ok (some (parent, idx, e))
        | none => .error .notFound

/-- `Pk2::root_resolve_path_to_entry_and_parent` (archive.rs:145): resolve
from the root chain; the "path was just root" sentinel surfaces as
`InvalidPath`, matching the handling in `open_directory` (archive.rs:187). -/
def root_resolve (s : Pk2) (path : List Component) :
    Except Error (PackBlockChain × Nat × PackEntry) :=
  match resolve_path_to_entry_and_parent s PK2_ROOT_BLOCK path with
  | .ok none => .error .invalidPath
  | .ok (some t) => .ok t
  | .error e => .error e

/-- `Pk2::open_file` (archive.rs:169): resolve, require a File entry,
return the borrowed handle's coordinates `(chain_index, entry_index)`. -/
def open_file (s : Pk2) (path : List Component) : Except Error (Nat × Nat) :=
  match root_resolve s path with
  | .error e => .error e
  | .ok (chain, idx, e) =>
    if e.is_file then .ok (chain.chain_index, idx) else .error .expectedFile

/-- `Pk2::open_file_mut` (archive.rs:198): same resolution and check as
`open_file`, returning a mutable handle's coordinates. -/
def open_file_mut (s : Pk2) (path : List Component) : Except Error (Nat × Nat) :=
  match root_resolve s path with
  | .error e => .error e
  | .ok (chain, idx, e) =>
    if e.is_file then .ok (chain.chain_index, idx) else .error .expectedFile

/-- `Pk2::open_directory` (archive.rs:176): like `open_file` but requiring
a Directory entry; the bare root path resolves to `(root, 0)`. -/
def open_directory (s : Pk2) (path : List Component) : Except Error (Nat × Nat) :=
  match root_resolve s path with
  | .ok (chain, idx, e) =>
    if e.is_dir then .ok (chain.chain_index, idx) else .error .expectedDirectory
  | .error .invalidPath => .ok (PK2_ROOT_BLOCK, 0)
  | .error e => .error e

/-- `Pk2::delete_file` (archive.rs:207): require a File entry, tombstone it
in the in-memory chain (`PackEntry::clear`) and overwrite its record on
disk with `PackEntry::new_empty(next_block)`.  The mutated state is
returned alongside the result, mirroring `&mut self`. -/
def delete_file (s : Pk2) (path : List Component) : Except Error Unit × Pk2 :=
  match root_resolve s path with
  | .error e => (.error e, s)
  | .ok (chain, idx, e) =>
    if e.is_file then
      let nb := e.next_block
      let ci := chain.chain_index
      let off := (chain.file_offset_for_entry idx).getD 0
      let chains' := fun k =>
        if k = ci then (s.chains k).map fun c => c.set_entry idx ((c.get idx).getD (.empty none)).clear
        else s.chains k
      (.ok (), { s with
        chains := chains',
        disk := writeEntryAt s.disk off (.empty nb) })
    else (.error .expectedFile, s)

/-- `BlockManager::validate_dir_path_until` (block_manager.rs:116): walk the
path while its components resolve; stop at the first `NotFound` on a
non-`..` component, returning the deepest existing chain and the unwalked
tail; `NotFound` on `..` is `InvalidPath`; other errors propagate. -/
def validate_dir_path_until (s : Pk2) :
    Nat → List Component → Except Error (Nat × List Component)
  | chain, [] => .ok (chain, [])
  | chain, c :: cs =>
    match c.to_str with
    | none => .error .nonUnicodePath
    | some n =>
      match (match s.chains chain with
             | none => (.error Error.invalidChainIndex : Except Error Nat)
             | some ch => ch.find_block_chain_index_of n) with
      | .ok i => validate_dir_path_until s i cs
      | .error .notFound =>
        if c = .parentDir then .error .invalidPath else .ok (chain, c :: cs)
      | .error e => .error e

/-- `PackBlockChain::create_new_block` (modelled from the spec, 4.C):
append a fresh empty block at the current file length, link it by setting
`next_block` of the last entry (index 19) of the current last block,
rewrite that entry on disk, write the new empty block, and return the
index of the first entry of the new block (the old flattened length).
Returns the new entry index, the extended chain, and the updated state
(with the chain map entry at `cur` replaced, as the Rust chain is mutated
in place inside the map). -/
def create_new_block (s : Pk2) (cur : Nat) (chain : PackBlockChain) :
    Nat × PackBlockChain × Pk2 :=
  let newOff := s.file_len
  let newBlock := PackBlock.new newOff
  let lastIdx := chain.entries.length - 1
  let linked := ((chain.get lastIdx).getD (.empty none)).set_next_block newOff
  let chain' : PackBlockChain :=
    ⟨PackBlockChain.set_entry_blocks chain.blocks lastIdx linked ++ [newBlock]⟩
  let entryOff := (chain.file_offset_for_entry lastIdx).getD 0
  let disk' := writeBlock (writeEntryAt s.disk entryOff linked) newBlock
  (chain.entries.length, chain',
    { chains := fun k => if k = cur then some chain' else s.chains k,
      file_len := newOff + PK2_BLOCK_SIZE,
      disk := disk' })

/-- `Pk2::create_new_block_chain` (archive.rs:306): allocate a new chain at
the end of the host file, write the parent's directory entry for it (in
memory and on disk), and write the new chain's first block with its `"."`
and `".."` entries. -/
def create_new_block_chain (s : Pk2) (cur : Nat) (chain : PackBlockChain)
    (dirName : String) (entryIdx : Nat) (t : FILETIME) :
    Nat × PackBlockChain × Pk2 :=
  let newOff := s.file_len
  let oldEntry := (chain.get entryIdx).getD (.empty none)
  let dirEntry := PackEntry.new_directory dirName t newOff oldEntry.next_block
  let chain' := chain.set_entry entryIdx dirEntry
  let entryOff := (chain.file_offset_for_entry entryIdx).getD 0
  let block : PackBlock :=
    ⟨newOff,
      PackEntry.new_directory "." t newOff none ::
      PackEntry.new_directory ".." t chain.chain_index none ::
      List.replicate 18 (PackEntry.empty none)⟩
  let newChain : PackBlockChain := ⟨[block]⟩
  let disk' := writeEntryAt (writeBlock s.disk block) entryOff dirEntry
  (newOff, newChain,
    { chains := fun k =>
        if k = newOff then some newChain
        else if k = cur then some chain' else s.chains k,
      file_len := newOff + PK2_BLOCK_SIZE,
      disk := disk' })

/-- The component loop of `Pk2::create_entry_at` (archive.rs:251): normal
components take the first empty slot (appending a block when the chain is
full) and, when further components follow, allocate a new directory chain;
`.` is skipped; `..` follows the chain's parent link.  An exhausted
component list means the whole path already existed: `AlreadyExists`. -/
def create_entry_go (t : FILETIME) (s : Pk2) :
    Nat → List Component → Except Error (Nat × Nat) × Pk2
  | _, [] => (.error .alreadyExists, s)
  | cur, c :: cs =>
    match c with
    | .curDir => create_entry_go t s cur cs
    | .parentDir =>
      match s.chains cur with
      | none => (.error .invalidChainIndex, s)
      | some chain =>
        match parentLinkPos chain.entries with
        | some p => create_entry_go t s p cs
        | none => (.error .invalidPath, s)
    | .normal p =>
      match s.chains cur with
      | none => (.error .invalidChainIndex, s)
      | some chain =>
        let step :=
          match firstEmptyIdx chain.entries with
          | some i => (i, chain, s)
          | none => create_new_block s cur chain
        match step with
        | (idx, chain1, s1) =>
          if cs.isEmpty then (.ok (chain1.chain_index, idx), s1)
          else
            match p.to_str with
            | none => (.error .nonUnicodePath, s1)
            | some dirName =>
              match create_new_block_chain s1 cur chain1 dirName idx t with
              | (newOff, _, s2) => create_entry_go t s2 newOff cs

/-- `Pk2::create_file` (archive.rs:226): extract the terminal file name
(`NonUnicodePath` when absent or non-convertible), walk the existing
prefix with `validate_dir_path_until`, run the creation loop, then
overwrite the returned empty slot with a fresh File entry of size 0 and
position 0 that keeps the slot's `next_block`. -/
def create_file (t : FILETIME) (s : Pk2) (path : List Component) :
    Except Error (Nat × Nat) × Pk2 :=
  match fileNameOf path with
  | none => (.error .nonUnicodePath, s)
  | some fname =>
    match validate_dir_path_until s PK2_ROOT_BLOCK path with
    | .error e => (.error e, s)
    | .ok (start, rest) =>
      match create_entry_go t s start rest with
      | (.error e, s') => (.error e, s')
      | (.ok (ci, ei), s') =>
        let s'' := { s' with
          chains := fun k =>
            if k = ci then
              (s'.chains k).map fun c =>
                c.set_entry ei
                  (PackEntry.new_file fname t 0 0 (((c.get ei).getD (.empty none)).next_block))
            else s'.chains k }
        (.ok (ci, ei), s'')

/-- The root block written by `Pk2::_create_impl` (archive.rs:106): a fresh
block at the root offset whose entry 0 is the Directory `"."` pointing at
the root chain index. -/
def initRootBlock (t : FILETIME) : PackBlock :=
  ⟨PK2_ROOT_BLOCK,
    PackEntry.new_directory "." t PK2_ROOT_BLOCK none ::
    List.replicate 19 (PackEntry.empty none)⟩

/-- The archive state right after `Pk2::create_new` (archive.rs:97):
`_create_impl` writes the header and the root block, and
`BlockManager::new` re-parses them into a chain map holding the single
root chain; the host file is 256 (header) + 2560 (root block) bytes long. -/
def initState (t : FILETIME) : Pk2 :=
  { chains := fun k =>
      if k = PK2_ROOT_BLOCK then some ⟨[initRootBlock t]⟩ else none,
    file_len := PK2_ROOT_BLOCK + PK2_BLOCK_SIZE,
    disk := writeBlock (fun _ => none) (initRootBlock t) }

/-- Archive states reachable by the library: `create_new` followed by any
sequence of `create_file` / `delete_file` calls (including failed calls,
whose partial mutations persist through `&mut self`). -/
inductive Reachable : Pk2 → Prop where
  | init (t : FILETIME) : Reachable (initState t)
  | createStep (t : FILETIME) (path : List Component) {s : Pk2} :
      Reachable s → Reachable (create_file t s path).2
  | deleteStep (path : List Component) {s : Pk2} :
      Reachable s → Reachable (delete_file s path).2

/-- The Blowfish core abstracted (the wrapper crate is not in the
snapshot): a function from the derived variable-length key and an 8-byte
plaintext block to the 8-byte ciphertext block.  The theorems that depend
on concrete cipher behaviour quantify over this function and, where
needed, assume its output is always 8 bytes long, as real Blowfish's is. -/
def BfEncrypt : Type := List Nat → List Nat → List Nat

/-- `gen_final_blowfish_key_inplace` (archive.rs:334): XOR the first
`min(len, 56)` key bytes with the salt zero-padded to 56 bytes. -/
def derivedKey (key : List Nat) : List Nat :=
  key.mapIdx fun i b =>
    if i < 56 then b ^^^ (PK2_SALT ++ List.replicate 46 0).getD i 0 else b

/-- The first stored checksum bytes under a key: encrypt `PK2_CHECKSUM`
with the derived key (archive.rs:67-69 and `PackHeader::new_encrypted`). -/
def keyCheck (bf : BfEncrypt) (key : List Nat) : List Nat :=
  (bf (derivedKey key) PK2_CHECKSUM).take PK2_CHECKSUM_STORED

/-- `PackHeader` (modelled from the spec, 4.G / section 3): the fields the
open/create logic inspects. -/
structure PackHeader where
  signature : List Nat
  version : Nat
  encrypted : Bool
  verify : List Nat
deriving DecidableEq, Repr

/-- `PackHeader::default()` (modelled from the spec, 4.G): unencrypted
fresh header. -/
def PackHeader.default : PackHeader :=
  ⟨PK2_SIGNATURE, PK2_VERSION, false, List.replicate 16 0⟩

/-- `PackHeader::new_encrypted(&bf)` (modelled from the spec, 4.G): the
verify field holds the 3 key-check bytes followed by zeros. -/
def PackHeader.new_encrypted (bf : BfEncrypt) (key : List Nat) : PackHeader :=
  ⟨PK2_SIGNATURE, PK2_VERSION, true, keyCheck bf key ++ List.replicate 13 0⟩

/-- The header produced by `Pk2::_create_impl` (archive.rs:98-103): an
empty key gives the default (unencrypted) header, otherwise the encrypted
header carrying the key check. -/
def createHeader (bf : BfEncrypt) (key : List Nat) : PackHeader :=
  if key = [] then PackHeader.default else PackHeader.new_encrypted bf key

/-- The header and key validation of `Pk2::_open_in_impl` (archive.rs:57-77):
check signature and version, then — only if the header says encrypted —
derive the key, encrypt the checksum and compare the first
`PK2_CHECKSUM_STORED` bytes against the verify field. -/
def openCheck (bf : BfEncrypt) (h : PackHeader) (key : List Nat) :
    Except Error Unit :=
  if h.signature ≠ PK2_SIGNATURE then .error .corruptedFile
  else if h.version ≠ PK2_VERSION then .error .unsupportedVersion
  else if h.encrypted then
    if keyCheck bf key ≠ h.verify.take PK2_CHECKSUM_STORED then
      .error .invalidKey
    else .ok ()
  else .ok ()

/-- Open an archive created with key `k`, using key `k'`: the composition
the key-verification claim is about. -/
def openCreated (bf : BfEncrypt) (k k' : List Nat) : Except Error Unit :=
  openCheck bf (createHeader bf k) k'

/-- A fixed timestamp for concrete evaluations. -/
def fTime0 : FILETIME := ⟨0, 0⟩

/-- A normal, Unicode-convertible path component. -/
def cnc (s : String) : Component := .normal ⟨some s⟩

/-- A normal path component that is not convertible to Unicode
(`OsStr::to_str` returns `None`). -/
def badComponent : Component := .normal ⟨none⟩

/-- A block whose first entry links back to the block's own offset: the
root block of an archive crafted to make the `next_block` links cycle. -/
def cycBlock : PackBlock :=
  ⟨PK2_ROOT_BLOCK,
    PackEntry.new_file "x" fTime0 0 0 (some PK2_ROOT_BLOCK) ::
    List.replicate 19 (PackEntry.empty none)⟩

/-- The crafted archive: reading any block at the root offset yields
`cycBlock`; everything else fails. -/
def cycFile : ReadFile := fun o => if o = PK2_ROOT_BLOCK then some cycBlock else none

/-- Entries before the distinguished linking entry of the C2 scenario. -/
def c2Pre : List PackEntry := List.replicate 5 (PackEntry.empty none)

/-- The earlier file entry carrying a non-zero `next_block` of 999. -/
def c2E : PackEntry := PackEntry.new_file "a" fTime0 0 0 (some 999)

/-- The entries after it: the block's last non-empty entry is a file with
`next_block = 0`, followed by nine empty entries. -/
def c2Suf : List PackEntry :=
  List.replicate 4 (PackEntry.empty none) ++
  PackEntry.new_file "b" fTime0 0 0 none ::
  List.replicate 9 (PackEntry.empty none)

/-- The C2 scenario block: its last non-empty entry has `next_block = 0`,
but an earlier entry has `next_block = 999`. -/
def c2Block : PackBlock := ⟨PK2_ROOT_BLOCK, c2Pre ++ c2E :: c2Suf⟩

/-- A host file holding the C2 block at the root offset and an all-empty
block at offset 999. -/
def c2File : ReadFile :=
  fun o =>
    if o = PK2_ROOT_BLOCK then some c2Block
    else if o = 999 then some (PackBlock.new 999) else none

/-- A degenerate Blowfish stand-in (used only where the cipher is never
invoked or its value is irrelevant). -/
def bfZero : BfEncrypt := fun _ _ => List.replicate 8 0

/-- A concrete Blowfish stand-in whose output is always 8 bytes and whose
key checks separate the keys used in the witnesses. -/
def bfW : BfEncrypt := fun key blk => resizeBytes (key ++ blk) 8

/-- A 100-character ASCII name whose EUC-KR encoding exceeds 81 bytes. -/
def longName : String := String.mk (List.replicate 100 'a')

/-- A file entry bearing the overlong name. -/
def longEntry : PackEntry := PackEntry.new_file longName fTime0 0 0 none

/-- A fresh archive with one file `a` created at the root. -/
def stateFileA : Pk2 := (create_file fTime0 (initState fTime0) [cnc "a"]).2

/-- A fresh archive with a directory `a` (containing file `b`) at the root. -/
def stateDirA : Pk2 := (create_file fTime0 (initState fTime0) [cnc "a", cnc "b"]).2

/-- The root chain of `stateFileA`, written out. -/
def rootChainA : PackBlockChain :=
  ⟨[⟨PK2_ROOT_BLOCK,
      PackEntry.new_directory "." fTime0 PK2_ROOT_BLOCK none ::
      PackEntry.new_file "a" fTime0 0 0 none ::
      List.replicate 18 (PackEntry.empty none)⟩]⟩

/-- The claimed `"."` self-entry shape: entry 0 of the chain is a Directory
named `"."` whose `pos_children` is the chain's own index. -/
def ChainDotEntry (i : Nat) (c : PackBlockChain) : Prop :=
  ∃ e0, c.get 0 = some e0 ∧ e0.name = some "." ∧ e0.is_dir = true ∧
    e0.pos_children? = some i

/-- The claimed `".."` parent-entry shape: entry 1 of the chain is a
Directory named `".."` whose `pos_children` is the index of a loaded chain
that in turn holds a directory entry pointing at this chain (its parent). -/
def ChainParentEntry (s : Pk2) (i : Nat) (c : PackBlockChain) : Prop :=
  ∃ e1 p, c.get 1 = some e1 ∧ e1.name = some ".." ∧ e1.is_dir = true ∧
    e1.pos_children? = some p ∧
    ∃ pc, s.chains p = some pc ∧
      ∃ j : Nat, ∃ e' : PackEntry, pc.entries[j]? = some e' ∧ e'.is_dir = true ∧
        e'.pos_children? = some i

/-- The inductive invariant of reachable archive states: every loaded chain
sits below the end of the host file, starts with a block at its own index,
has 20-entry blocks throughout, carries the `"."` self-entry, and — except
for the root chain — carries the `".."` parent entry. -/
def ArchiveInv (s : Pk2) : Prop :=
  PK2_ROOT_BLOCK < s.file_len ∧
  ∀ i c, s.chains i = some c →
    i < s.file_len ∧
    (∃ b0 bs, c.blocks = b0 :: bs ∧ b0.offset = i) ∧
    (∀ b ∈ c.blocks, b.wf) ∧
    ChainDotEntry i c ∧
    (i ≠ PK2_ROOT_BLOCK → ChainParentEntry s i c)

theorem leBytes_length (k : Nat) : ∀ n, (leBytes k n).length = k := by
  induction k with
  | zero => intro n; rfl
  | succ m ih => intro n; simp [leBytes, ih]

/-- C1: For every archive file, loading a block chain on open terminates
with the block count bounded, and a cyclic `next_block` link yields
`CorruptedFile` rather than an endless loop.  This FAILS on the code: on
the crafted archive whose root block links back to itself,
`read_chain_from_file_at` never finishes — for every fuel bound the loop
is still running (it neither returns a chain nor any error), matching the
source's own FIXME about a neverending loop. -/
theorem c1_cycle_nonterminating :
    ∀ fuel, read_chain_from_file_at cycFile fuel PK2_ROOT_BLOCK = none := by
  intro fuel
  induction fuel with
  | zero => rfl
  | succ n ih =>
    have h1 : cycFile PK2_ROOT_BLOCK = some cycBlock := rfl
    have h2 : cycBlock.chain_next = some PK2_ROOT_BLOCK := rfl
    simp only [read_chain_from_file_at, h1, h2, ih]

/-- C2: the claim states the link from block i to block i+1 is the
`next_block` of the last NON-EMPTY entry, so a block whose last non-empty
entry has `next_block = 0` should end the chain.  Counterexample: in
`c2Block` the last non-empty entry (the file `b`) has `next_block = none`,
yet `chain_next` skips it and follows the earlier entry's 999, and the
loaded chain has a second block. -/
theorem c2_counterexample :
    ((c2Block.entries.reverse.find? fun e => !e.is_empty).map PackEntry.next_block)
      = some none ∧
    c2Block.chain_next = some 999 ∧
    read_chain_from_file_at c2File 5 PK2_ROOT_BLOCK =
      some (some [c2Block, PackBlock.new 999]) := ⟨rfl, rfl, rfl⟩

/-- C2 (amended): the offset of block i+1 is the `next_block` of the last
entry of block i whose `next_block` is non-zero, scanning entries in
reverse and regardless of the entry's variant; the chain terminates at
block i exactly when every entry's `next_block` is 0. -/
theorem c2_amended (f : ReadFile) (fuel off : Nat) (b : PackBlock)
    (h : f off = some b) :
    ((∀ e ∈ b.entries, e.next_block = none) →
      read_chain_from_file_at f (fuel + 1) off = some (some [b])) ∧
    (∀ pre e suf v, b.entries = pre ++ e :: suf → e.next_block = some v →
      (∀ x ∈ suf, x.next_block = none) →
      b.chain_next = some v ∧
      read_chain_from_file_at f (fuel + 1) off =
        (match read_chain_from_file_at f fuel v with
         | none => none
         | some none => some none
         | some (some bs) => some (some (b :: bs)))) := by
  constructor
  · intro hall
    have hn : b.chain_next = none := by
      rw [PackBlock.chain_next, List.findSome?_eq_none_iff]
      intro x hx
      exact hall x (List.mem_reverse.mp hx)
    simp only [read_chain_from_file_at, h, hn]
  · intro pre e suf v hsplit hv hsuf
    have hsufnone : suf.reverse.findSome? PackEntry.next_block = none := by
      rw [List.findSome?_eq_none_iff]
      intro x hx
      exact hsuf x (List.mem_reverse.mp hx)
    have hn : b.chain_next = some v := by
      rw [PackBlock.chain_next, hsplit, List.reverse_append, List.reverse_cons,
        List.findSome?_append, List.findSome?_append, hsufnone, Option.none_or,
        List.findSome?_cons, hv]
      rfl
    refine ⟨hn, ?_⟩
    simp only [read_chain_from_file_at, h, hn]

/-- C2 (amended) witness at the concrete scenario. -/
theorem c2_amended_witness :
    c2Block.chain_next = some 999 ∧
    read_chain_from_file_at c2File 2 PK2_ROOT_BLOCK =
      (match read_chain_from_file_at c2File 1 999 with
       | none => none
       | some none => some none
       | some (some bs) => some (some (c2Block :: bs))) :=
  (c2_amended c2File 1 PK2_ROOT_BLOCK c2Block rfl).2 c2Pre c2E c2Suf 999
    rfl rfl (by decide)

/-- C10: `PackEntry::set_next_block` is a no-op on Empty entries, and on
Directory and File entries it updates `next_block` with 0 mapped to
`None`. -/
theorem c10_set_next_block :
    (∀ nb n, (PackEntry.empty nb).set_next_block n = .empty nb) ∧
    (∀ nm a c m pc nb n,
      (PackEntry.directory nm a c m pc nb).set_next_block n =
        .directory nm a c m pc (nzOpt n)) ∧
    (∀ nm a c m pd sz nb n,
      (PackEntry.file nm a c m pd sz nb).set_next_block n =
        .file nm a c m pd sz (nzOpt n)) :=
  ⟨fun _ _ => rfl, fun _ _ _ _ _ _ _ => rfl, fun _ _ _ _ _ _ _ _ => rfl⟩

set_option maxRecDepth 4000 in
/-- C7: the claim states that an entry whose name's EUC-KR encoding
exceeds 81 bytes is rejected by the encoder.  Counterexample: the encoder
silently truncates instead — for the 100-byte name the writer succeeds
(it is total) and emits a valid 128-byte record whose name field holds the
first 81 bytes of the encoding. -/
theorem c7_counterexample :
    81 < (eucKrEncode longName).length ∧
    longEntry.to_writer.length = 128 ∧
    longEntry.to_writer.take 82 = 2 :: List.replicate 81 97 := by
  refine ⟨by decide, by decide, by decide⟩

/-- C7 (amended): encoding a Directory or File entry never fails; the
EUC-KR name is resized to exactly 81 bytes by `Vec::resize`, so a name
whose encoding is 81 bytes or longer is silently truncated to its first
81 bytes, and the record is always exactly 128 bytes. -/
theorem c7_amended (n : String) (a c m : FILETIME) (pd sz pc : Nat)
    (nb : Option Nat) :
    (PackEntry.file n a c m pd sz nb).to_writer.length = PK2_FILE_ENTRY_SIZE ∧
    (PackEntry.directory n a c m pc nb).to_writer.length = PK2_FILE_ENTRY_SIZE ∧
    (81 ≤ (eucKrEncode n).length →
      (PackEntry.file n a c m pd sz nb).to_writer.take 82 =
        2 :: (eucKrEncode n).take 81 ∧
      (PackEntry.directory n a c m pc nb).to_writer.take 82 =
        1 :: (eucKrEncode n).take 81) := by
  have hres : (resizeBytes (eucKrEncode n) 81).length = 81 := by
    simp only [resizeBytes, List.length_append, List.length_take,
      List.length_replicate]
    omega
  refine ⟨?_, ?_, fun h => ?_⟩
  · simp only [PackEntry.to_writer, List.length_cons, List.length_append,
      leBytes_length, hres, PK2_FILE_ENTRY_SIZE]
  · simp only [PackEntry.to_writer, List.length_cons, List.length_append,
      leBytes_length, hres, PK2_FILE_ENTRY_SIZE]
  · have htr : resizeBytes (eucKrEncode n) 81 = (eucKrEncode n).take 81 := by
      simp [resizeBytes, Nat.sub_eq_zero_of_le h]
    constructor
    · simp only [PackEntry.to_writer, htr, List.cons_append, List.append_assoc]
      rw [show (82 : Nat) = 81 + 1 from rfl, List.take_succ_cons]
      congr 1
      rw [List.take_append_of_le_length (by simp [List.length_take]; omega)]
      exact List.take_of_length_le (by simp [List.length_take])
    · simp only [PackEntry.to_writer, htr, List.cons_append, List.append_assoc]
      rw [show (82 : Nat) = 81 + 1 from rfl, List.take_succ_cons]
      congr 1
      rw [List.take_append_of_le_length (by simp [List.length_take]; omega)]
      exact List.take_of_length_le (by simp [List.length_take])

set_option maxRecDepth 4000 in
/-- C7 (amended) witness at the concrete overlong name. -/
theorem c7_amended_witness :
    81 ≤ (eucKrEncode longName).length ∧
    longEntry.to_writer.take 82 = 2 :: (eucKrEncode longName).take 81 := by
  refine ⟨by decide, ?_⟩
  exact ((c7_amended longName fTime0 fTime0 fTime0 0 0 0 none).2.2 (by decide)).1

set_option maxRecDepth 4000 in
/-- C8: the claim states an Empty entry's `next_block` is written at byte
offsets 118..126 of the record, the same position as in Directory and File
entries.  Counterexample: the Empty encoder writes 120 zero bytes first,
so `next_block` occupies the final 8 bytes 120..128 — byte 118 stays 0 and
byte 120 carries the value, while a Directory entry stores it at 118. -/
theorem c8_counterexample :
    (PackEntry.empty (some 1)).to_writer[118]? = some 0 ∧
    (PackEntry.empty (some 1)).to_writer[120]? = some 1 ∧
    (PackEntry.directory "a" fTime0 fTime0 fTime0 0 (some 1)).to_writer[118]? =
      some 1 := by
  refine ⟨by decide, by decide, by decide⟩

/-- C8 (amended): an Empty entry occupies exactly 128 bytes; encoding
writes its `next_block` as a little-endian u64 in the LAST 8 bytes (byte
offsets 120..128, two bytes later than the 118..126 position of Directory
and File entries, with no trailing padding of its own); decoding a type-0
entry consumes exactly 128 bytes (and discards the stored value). -/
theorem c8_amended (nb : Option Nat) (bytes rest : List Nat)
    (h : bytes.length = 127) :
    (PackEntry.empty nb).to_writer =
      List.replicate 120 0 ++ leBytes 8 (nb.getD 0) ∧
    (PackEntry.empty nb).to_writer.length = PK2_FILE_ENTRY_SIZE ∧
    PackEntry.from_reader (0 :: bytes ++ rest) = .ok (.empty none, rest) := by
  have hlen : 127 ≤ (bytes ++ rest).length := by simp [h]
  have hd : (bytes ++ rest).drop 127 = rest := by
    rw [← h]
    exact List.drop_left bytes rest
  refine ⟨rfl, ?_, ?_⟩
  · simp [PackEntry.to_writer, leBytes_length, PK2_FILE_ENTRY_SIZE]
  · have hb : 127 ≤ bytes.length + rest.length := by rw [h]; omega
    simp [PackEntry.from_reader, readBytes, hd, hb]

set_option maxRecDepth 4000 in
/-- C8 (amended) witness at a concrete 128-byte type-0 record. -/
theorem c8_amended_witness :
    (List.replicate 127 7).length = 127 ∧
    PackEntry.from_reader (0 :: List.replicate 127 7 ++ [1, 2]) =
      .ok (.empty none, [1, 2]) :=
  ⟨by decide, (c8_amended (some 5) (List.replicate 127 7) [1, 2] (by decide)).2.2⟩

/-- C3: the claim states that opening an archive created with key K using
any key different from K yields `InvalidKey`.  Counterexample: an archive
created with the empty key is written unencrypted, so opening it with the
(different) key `[120]` performs no key verification at all and succeeds. -/
theorem c3_counterexample :
    openCreated bfZero [] [120] = .ok () ∧ ([120] : List Nat) ≠ [] :=
  ⟨rfl, by decide⟩

/-- C3 (amended): opening with the creating key always succeeds.  For a
non-empty key K the archive is encrypted and opening with key K' yields
`InvalidKey` exactly when the 3-byte key checks of K' and K differ (only
3 checksum bytes are compared); for the empty key K the archive is
unencrypted and opening succeeds with every key.  The Blowfish core is
abstract here; its output blocks are assumed 8 bytes long, as real
Blowfish's are. -/
theorem c3_amended (bf : BfEncrypt) (k k' : List Nat)
    (hlen : ∀ key blk, (bf key blk).length = 8) :
    openCreated bf k k = .ok () ∧
    (k = [] → openCreated bf k k' = .ok ()) ∧
    (k ≠ [] → keyCheck bf k' ≠ keyCheck bf k →
      openCreated bf k k' = .error .invalidKey) ∧
    (k ≠ [] → keyCheck bf k' = keyCheck bf k →
      openCreated bf k k' = .ok ()) := by
  by_cases hk : k = []
  · subst hk
    have hok : ∀ key', openCreated bf [] key' = .ok () := by
      intro key'
      unfold openCreated createHeader openCheck PackHeader.default
      simp
    exact ⟨hok [], fun _ => hok k', fun hne _ => absurd rfl hne,
      fun hne _ => absurd rfl hne⟩
  · have h3 : (keyCheck bf k).length = 3 := by
      simp [keyCheck, List.length_take, hlen, PK2_CHECKSUM_STORED]
    have hv : ((keyCheck bf k ++ List.replicate 13 0).take PK2_CHECKSUM_STORED)
        = keyCheck bf k := by
      rw [List.take_append_of_le_length (by rw [h3]; decide)]
      exact List.take_of_length_le (by rw [h3]; decide)
    have hopen : ∀ key', openCreated bf k key' =
        (if keyCheck bf key' ≠ keyCheck bf k then .error .invalidKey
         else .ok ()) := by
      intro key'
      unfold openCreated createHeader
      rw [if_neg hk]
      unfold openCheck PackHeader.new_encrypted
      simp only [hv]
      rw [if_neg (by simp), if_neg (by simp)]
      simp
    refine ⟨?_, fun he => absurd he hk, fun _ hne => ?_, fun _ heq => ?_⟩
    · rw [hopen k, if_neg (by simp)]
    · rw [hopen k', if_pos hne]
    · rw [hopen k', if_neg (by simp [heq])]

/-- C3 (amended) witness: a concrete length-8 cipher stand-in separating
the keys `[1]` and `[2]`. -/
theorem c3_amended_witness :
    openCreated bfW [1] [1] = .ok () ∧
    keyCheck bfW [2] ≠ keyCheck bfW [1] ∧
    openCreated bfW [1] [2] = .error .invalidKey := by
  have hlen : ∀ key blk, (bfW key blk).length = 8 := by
    intro key blk
    simp only [bfW, resizeBytes, List.length_append, List.length_take,
      List.length_replicate]
    omega
  have h := c3_amended bfW [1] [2] hlen
  exact ⟨h.1, by decide, h.2.2.1 (by decide) (by decide)⟩

theorem findNamed_spec :
    ∀ (l : List PackEntry) (n : Option String) (i : Nat) (e : PackEntry),
      findNamed l n = some (i, e) → e.name = n ∧ l[i]? = some e := by
  intro l
  induction l with
  | nil => intro n i e h; simp [findNamed] at h
  | cons a as ih =>
    intro n i e h
    by_cases ha : a.name = n
    · simp only [findNamed, if_pos ha, Option.some.injEq] at h
      obtain ⟨rfl, rfl⟩ := Prod.mk.injEq .. ▸ h
      exact ⟨ha, by simp⟩
    · simp only [findNamed, if_neg ha, Option.map_eq_some'] at h
      obtain ⟨⟨j, e'⟩, hfind, heq⟩ := h
      obtain ⟨rfl, rfl⟩ := Prod.mk.injEq .. ▸ heq
      obtain ⟨h1, h2⟩ := ih n j e' hfind
      exact ⟨h1, by simpa using h2⟩

theorem name_none_variant (e : PackEntry) (h : e.name = none) :
    e.is_empty = true ∧ e.is_file = false ∧ e.is_dir = false := by
  cases e <;> simp_all [PackEntry.name, PackEntry.is_empty, PackEntry.is_file,
    PackEntry.is_dir]

theorem resolve_bad_component (s : Pk2) (bad : Component)
    (hbad : bad.to_str = none) :
    ∀ (pre rest : List Component) (cur r : Nat),
      resolve_path_to_block_chain_index_at s cur pre = .ok r →
      resolve_path_to_block_chain_index_at s cur (pre ++ bad :: rest) =
        .error .nonUnicodePath := by
  intro pre
  induction pre with
  | nil =>
    intro rest cur r _
    simp only [List.nil_append, resolve_path_to_block_chain_index_at, hbad]
  | cons c cs ih =>
    intro rest cur r h
    rw [List.cons_append]
    simp only [resolve_path_to_block_chain_index_at] at h ⊢
    cases hc : c.to_str with
    | none => simp only [hc] at h; exact (Except.noConfusion h)
    | some n =>
      simp only [hc] at h ⊢
      cases hch : s.chains cur with
      | none => simp only [hch] at h; exact (Except.noConfusion h)
      | some chain =>
        simp only [hch] at h ⊢
        cases hf : chain.find_block_chain_index_of n with
        | error er => simp only [hf] at h; exact (Except.noConfusion h)
        | ok i =>
          simp only [hf] at h ⊢
          exact ih rest i r h

theorem resolve_entry_concat (s : Pk2) (pre : List Component) (last : Component)
    (p : Nat) (parent : PackBlockChain)
    (hres : resolve_path_to_block_chain_index_at s PK2_ROOT_BLOCK pre = .ok p)
    (hp : s.chains p = some parent) :
    resolve_path_to_entry_and_parent s PK2_ROOT_BLOCK (pre ++ [last]) =
      (match findNamed parent.entries last.to_str with
       | some (idx, e) => .ok (some (parent, idx, e))
       | none => .error .notFound) := by
  simp only [resolve_path_to_entry_and_parent, List.getLast?_concat,
    List.dropLast_concat, hres, hp]

/-- C9: the claim states every path-resolving operation returns
`NonUnicodePath` when any component — including the final one — is not
convertible, and that resolution never matches a non-convertible component
against an Empty entry.  Counterexample: on a fresh archive, `open_file`
with a single non-convertible component compares the `None` name against
entry names and matches the first Empty entry of the root chain, returning
`ExpectedFile` instead of `NonUnicodePath`. -/
theorem c9_counterexample :
    open_file (initState fTime0) [badComponent] = .error .expectedFile ∧
    Error.expectedFile ≠ Error.nonUnicodePath := ⟨rfl, by decide⟩

/-- C9 (amended): a non-convertible component that is not the final one
makes resolution fail with `NonUnicodePath` (once the components before it
resolve), and `create_file` checks its terminal name up front and returns
`NonUnicodePath`.  But `open_file`, `open_file_mut`, `open_directory` and
`delete_file` compare the terminal component as an optional name, so a
non-convertible terminal component matches the first Empty entry of the
parent chain (yielding `ExpectedFile` / `ExpectedDirectory`), or yields
`NotFound` when the parent chain has no Empty entry. -/
theorem c9_amended (s : Pk2) (pre : List Component) (bad : Component)
    (hbad : bad.to_str = none) :
    (∀ rest cur r, resolve_path_to_block_chain_index_at s cur pre = .ok r →
      resolve_path_to_block_chain_index_at s cur (pre ++ bad :: rest) =
        .error .nonUnicodePath) ∧
    (∀ t, create_file t s (pre ++ [bad]) = (.error .nonUnicodePath, s)) ∧
    (∀ p parent, resolve_path_to_block_chain_index_at s PK2_ROOT_BLOCK pre = .ok p →
      s.chains p = some parent →
      open_file s (pre ++ [bad]) =
        (match findNamed parent.entries none with
         | some _ => .error .expectedFile
         | none => .error .notFound) ∧
      open_file_mut s (pre ++ [bad]) =
        (match findNamed parent.entries none with
         | some _ => .error .expectedFile
         | none => .error .notFound) ∧
      open_directory s (pre ++ [bad]) =
        (match findNamed parent.entries none with
         | some _ => .error .expectedDirectory
         | none => .error .notFound) ∧
      (delete_file s (pre ++ [bad])).1 =
        (match findNamed parent.entries none with
         | some _ => .error .expectedFile
         | none => .error .notFound)) := by
  obtain ⟨os, rfl, hos⟩ : ∃ os, bad = .normal os ∧ os.to_str = none := by
    cases bad with
    | normal os => exact ⟨os, rfl, hbad⟩
    | curDir => exact absurd hbad (by simp [Component.to_str])
    | parentDir => exact absurd hbad (by simp [Component.to_str])
  refine ⟨resolve_bad_component s _ hbad pre, fun t => ?_, fun p parent hres hp => ?_⟩
  · simp only [create_file, fileNameOf, List.getLast?_concat, hos]
  · have hrep := resolve_entry_concat s pre (.normal os) p parent hres hp
    rw [show (Component.normal os).to_str = none from hos] at hrep
    cases hfn : findNamed parent.entries none with
    | none =>
      rw [hfn] at hrep
      refine ⟨?_, ?_, ?_, ?_⟩ <;>
        simp only [open_file, open_file_mut, open_directory, delete_file,
          root_resolve, hrep, hfn]
    | some pair =>
      obtain ⟨idx, e⟩ := pair
      rw [hfn] at hrep
      have hname := (findNamed_spec parent.entries none idx e hfn).1
      obtain ⟨-, hnf, hnd⟩ := name_none_variant e hname
      refine ⟨?_, ?_, ?_, ?_⟩ <;>
        simp only [open_file, open_file_mut, open_directory, delete_file,
          root_resolve, hrep, hfn, hnf, hnd, Bool.false_eq_true, if_false]

/-- C9 (amended) witness on a fresh archive with a non-convertible
terminal component. -/
theorem c9_amended_witness :
    badComponent.to_str = none ∧
    create_file fTime0 (initState fTime0) [badComponent] =
      (.error .nonUnicodePath, initState fTime0) ∧
    open_directory (initState fTime0) [badComponent] = .error .expectedDirectory ∧
    (delete_file (initState fTime0) [badComponent]).1 = .error .expectedFile := by
  have h := c9_amended (initState fTime0) [] badComponent rfl
  have h3 := h.2.2 PK2_ROOT_BLOCK ⟨[initRootBlock fTime0]⟩ rfl rfl
  exact ⟨rfl, h.2.1 fTime0, h3.2.2.1.trans rfl, h3.2.2.2.trans rfl⟩

/-- C6: the claim states `create_file` returns `AlreadyExists` whenever
the terminal name already exists, whether as a file or a directory.
Counterexample: when the terminal name exists as a FILE,
`validate_dir_path_until` walks into it via `find_block_chain_index_of`,
which yields `ExpectedDirectory`, and `create_file` propagates that error
instead of `AlreadyExists`. -/
theorem c6_counterexample :
    (create_file fTime0 stateFileA [cnc "a"]).1 = .error .expectedDirectory ∧
    open_file stateFileA [cnc "a"] = .ok (PK2_ROOT_BLOCK, 1) ∧
    Error.expectedDirectory ≠ Error.alreadyExists := ⟨rfl, rfl, by decide⟩

/-- C6 (amended): when every component of the path, the terminal name
included, resolves to an existing directory, `validate_dir_path_until`
consumes the whole path and the creation loop's exhausted component list
yields `AlreadyExists` (with no mutation); when the terminal name exists
as a File entry (matched first), the walk fails with `ExpectedDirectory`,
which `create_file` propagates unchanged. -/
theorem c6_amended (t : FILETIME) (s : Pk2) (path : List Component)
    (fname : String) (hn : fileNameOf path = some fname) :
    (∀ c, validate_dir_path_until s PK2_ROOT_BLOCK path = .ok (c, []) →
      create_file t s path = (.error .alreadyExists, s)) ∧
    (∀ e, validate_dir_path_until s PK2_ROOT_BLOCK path = .error e →
      create_file t s path = (.error e, s)) := by
  constructor
  · intro c hv
    simp only [create_file, hn, hv, create_entry_go]
  · intro e hv
    simp only [create_file, hn, hv]

/-- C6 (amended) witness: a fresh archive with directory `a` (already
existing) and one with file `a`. -/
theorem c6_amended_witness :
    create_file fTime0 stateDirA [cnc "a"] = (.error .alreadyExists, stateDirA) ∧
    create_file fTime0 stateFileA [cnc "a"] =
      (.error .expectedDirectory, stateFileA) := by
  constructor
  · exact (c6_amended fTime0 stateDirA [cnc "a"] "a" rfl).1
      (PK2_ROOT_BLOCK + PK2_BLOCK_SIZE) rfl
  · exact (c6_amended fTime0 stateFileA [cnc "a"] "a" rfl).2 .expectedDirectory rfl

theorem entries_set_entry_blocks (bs : List PackBlock) :
    ∀ (i : Nat) (e : PackEntry),
      ((PackBlockChain.set_entry_blocks bs i e).map PackBlock.entries).flatten =
        ((bs.map PackBlock.entries).flatten).set i e := by
  induction bs with
  | nil => intro i e; simp [PackBlockChain.set_entry_blocks]
  | cons b bs ih =>
    intro i e
    simp only [PackBlockChain.set_entry_blocks]
    by_cases h : i < b.entries.length
    · simp only [if_pos h, List.map_cons, List.flatten_cons, List.set_append,
        if_pos h]
    · simp only [if_neg h, List.map_cons, List.flatten_cons, List.set_append,
        if_neg h, ih]

theorem entries_set_entry (c : PackBlockChain) (i : Nat) (e : PackEntry) :
    (c.set_entry i e).entries = c.entries.set i e := by
  simp only [PackBlockChain.set_entry, PackBlockChain.entries]
  exact entries_set_entry_blocks c.blocks i e

theorem set_entry_blocks_map_offset (bs : List PackBlock) :
    ∀ (i : Nat) (e : PackEntry),
      (PackBlockChain.set_entry_blocks bs i e).map PackBlock.offset =
        bs.map PackBlock.offset := by
  induction bs with
  | nil => intro i e; rfl
  | cons b bs ih =>
    intro i e
    simp only [PackBlockChain.set_entry_blocks]
    by_cases h : i < b.entries.length
    · simp [if_pos h]
    · simp [if_neg h, ih]

theorem set_entry_blocks_length (bs : List PackBlock) :
    ∀ (i : Nat) (e : PackEntry),
      (PackBlockChain.set_entry_blocks bs i e).length = bs.length := by
  induction bs with
  | nil => intro i e; rfl
  | cons b bs ih =>
    intro i e
    simp only [PackBlockChain.set_entry_blocks]
    by_cases h : i < b.entries.length
    · simp [if_pos h]
    · simp [if_neg h, ih]

theorem chain_index_set_entry (c : PackBlockChain) (i : Nat) (e : PackEntry) :
    (c.set_entry i e).chain_index = c.chain_index := by
  simp only [PackBlockChain.chain_index, PackBlockChain.set_entry]
  rw [← List.head?_map, ← List.head?_map, set_entry_blocks_map_offset]

theorem find?_set_invariant (p : PackEntry → Bool) (l : List PackEntry) :
    ∀ (i : Nat) (eo en : PackEntry), l[i]? = some eo → p eo = false →
      p en = false → (l.set i en).find? p = l.find? p := by
  induction l with
  | nil => intro i eo en h; simp at h
  | cons a as ih =>
    intro i eo en h hpo hpn
    cases i with
    | zero =>
      have ha : a = eo := by simpa using h
      subst ha
      simp only [List.set_cons_zero]
      rw [List.find?_cons_of_neg _ (by simp [hpn]),
        List.find?_cons_of_neg _ (by simp [hpo])]
    | succ j =>
      have hj : as[j]? = some eo := by simpa using h
      simp only [List.set_cons_succ]
      by_cases hp : p a = true
      · rw [List.find?_cons_of_pos _ hp, List.find?_cons_of_pos _ hp]
      · rw [List.find?_cons_of_neg _ hp, List.find?_cons_of_neg _ hp]
        exact ih j eo en hj hpo hpn

theorem findNamed_eq_none (l : List PackEntry) (n : Option String)
    (h : ∀ (j : Nat) (e' : PackEntry), l[j]? = some e' → e'.name ≠ n) :
    findNamed l n = none := by
  induction l with
  | nil => rfl
  | cons a as ih =>
    have ha : a.name ≠ n := h 0 a (by simp)
    simp only [findNamed, if_neg ha]
    rw [ih fun j e' hj => h (j + 1) e' (by simpa using hj)]
    rfl

theorem find_bci_stable (parent : PackBlockChain) (idx : Nat)
    (e enew : PackEntry)
    (hget : parent.entries[idx]? = some e) (hfile : e.is_file = true)
    (hnewname : enew.name = none)
    (huniq : ∀ j, j < parent.entries.length → j ≠ idx →
      (parent.entries[j]?.bind PackEntry.name) ≠ e.name)
    (n : String) (r : Nat)
    (h : parent.find_block_chain_index_of n = .ok r) :
    (parent.set_entry idx enew).find_block_chain_index_of n = .ok r := by
  unfold PackBlockChain.find_block_chain_index_of at h ⊢
  rw [entries_set_entry]
  by_cases hn : e.name = some n
  · exfalso
    cases hf : parent.entries.find? (fun x => x.name = some n) with
    | none => simp only [hf] at h; exact Except.noConfusion h
    | some d =>
      have hd : d.name = some n := by
        have := List.find?_some hf
        simpa using this
      obtain ⟨j, hj⟩ := List.mem_iff_getElem?.mp (List.mem_of_find?_eq_some hf)
      by_cases hji : j = idx
      · subst hji
        have hde : d = e := by
          have := hget.symm.trans hj
          exact (Option.some.injEq .. ▸ this).symm
        subst hde
        cases d with
        | empty nb => simp [PackEntry.is_file] at hfile
        | directory nm a c m pc nb => simp [PackEntry.is_file] at hfile
        | file nm a c m pd sz nb =>
          simp only [hf] at h
          exact Except.noConfusion h
      · have hlt : j < parent.entries.length := by
          by_contra hge
          rw [List.getElem?_eq_none (by omega)] at hj
          exact Option.noConfusion hj
        exact huniq j hlt hji (by rw [hj]; simpa [hd] using hn.symm)
  · have hpo : decide (e.name = some n) = false := by simp [hn]
    have hpn : decide (enew.name = some n) = false := by simp [hnewname]
    rw [find?_set_invariant (fun x => decide (x.name = some n)) parent.entries
      idx e enew hget hpo hpn]
    exact h

theorem resolve_stable (s : Pk2) (pi idx : Nat) (parent : PackBlockChain)
    (e enew : PackEntry)
    (hpar : s.chains pi = some parent)
    (hget : parent.entries[idx]? = some e)
    (hfile : e.is_file = true)
    (hnewname : enew.name = none)
    (huniq : ∀ j, j < parent.entries.length → j ≠ idx →
      (parent.entries[j]?.bind PackEntry.name) ≠ e.name)
    (s' : Pk2)
    (hs' : ∀ k, s'.chains k =
      if k = pi then some (parent.set_entry idx enew) else s.chains k) :
    ∀ (comps : List Component) (cur r : Nat),
      resolve_path_to_block_chain_index_at s cur comps = .ok r →
      resolve_path_to_block_chain_index_at s' cur comps = .ok r := by
  intro comps
  induction comps with
  | nil => intro cur r h; exact h
  | cons c cs ih =>
    intro cur r h
    simp only [resolve_path_to_block_chain_index_at] at h ⊢
    cases hc : c.to_str with
    | none => simp only [hc] at h; exact Except.noConfusion h
    | some n =>
      simp only [hc] at h ⊢
      by_cases hcur : cur = pi
      · subst hcur
        rw [hpar] at h
        rw [hs' cur, if_pos rfl]
        simp only [] at h ⊢
        cases hf : parent.find_block_chain_index_of n with
        | error er => simp only [hf] at h; exact Except.noConfusion h
        | ok i =>
          simp only [hf] at h
          rw [find_bci_stable parent idx e enew hget hfile hnewname huniq n i hf]
          exact ih i r h
      · rw [hs' cur, if_neg hcur]
        cases hch : s.chains cur with
        | none => simp only [hch] at h; exact Except.noConfusion h
        | some chain =>
          simp only [hch] at h ⊢
          cases hf : chain.find_block_chain_index_of n with
          | error er => simp only [hf] at h; exact Except.noConfusion h
          | ok i =>
            simp only [hf] at h ⊢
            exact ih i r h

/-- C5: for a path resolving to an existing File entry (with its name
unique in the parent chain, the library's own invariant), `delete_file`
succeeds and (a) replaces the entry in the in-memory chain with an Empty
entry carrying the deleted entry's `next_block`, (b) writes that Empty
entry at the entry's file offset on disk, (c) makes `open_file` on the
same path return `NotFound`, (d) leaves the chain's block count unchanged,
and (e) leaves every other chain, every other entry of the chain, every
other disk record, and the file length unchanged. -/
theorem c5_delete_file (s : Pk2) (pre : List Component) (last : Component)
    (fname : String) (pi idx : Nat) (parent : PackBlockChain) (e : PackEntry)
    (hres : resolve_path_to_block_chain_index_at s PK2_ROOT_BLOCK pre = .ok pi)
    (hpar : s.chains pi = some parent)
    (hci : parent.chain_index = pi)
    (hlast : last.to_str = some fname)
    (hfind : findNamed parent.entries (some fname) = some (idx, e))
    (hfile : e.is_file = true)
    (huniq : ∀ j, j < parent.entries.length → j ≠ idx →
      (parent.entries[j]?.bind PackEntry.name) ≠ some fname) :
    (delete_file s (pre ++ [last])).1 = .ok () ∧
    (delete_file s (pre ++ [last])).2.chains pi =
      some (parent.set_entry idx (.empty e.next_block)) ∧
    (parent.set_entry idx (.empty e.next_block)).entries =
      parent.entries.set idx (.empty e.next_block) ∧
    (delete_file s (pre ++ [last])).2.disk
        ((parent.file_offset_for_entry idx).getD 0) =
      some (.empty e.next_block) ∧
    open_file (delete_file s (pre ++ [last])).2 (pre ++ [last]) =
      .error .notFound ∧
    (parent.set_entry idx (.empty e.next_block)).blocks.length =
      parent.blocks.length ∧
    (∀ k, k ≠ pi → (delete_file s (pre ++ [last])).2.chains k = s.chains k) ∧
    (∀ j, j ≠ idx →
      (parent.set_entry idx (.empty e.next_block)).entries[j]? =
        parent.entries[j]?) ∧
    (∀ o, o ≠ (parent.file_offset_for_entry idx).getD 0 →
      (delete_file s (pre ++ [last])).2.disk o = s.disk o) ∧
    (delete_file s (pre ++ [last])).2.file_len = s.file_len := by
  have hrep := resolve_entry_concat s pre last pi parent hres hpar
  simp only [hlast, hfind] at hrep
  have hroot : root_resolve s (pre ++ [last]) = .ok (parent, idx, e) := by
    simp only [root_resolve, hrep]
  have hget : parent.entries[idx]? = some e := (findNamed_spec _ _ _ _ hfind).2
  have hname : e.name = some fname := (findNamed_spec _ _ _ _ hfind).1
  have hd : delete_file s (pre ++ [last]) =
      (.ok (), { s with
        chains := fun k =>
          if k = parent.chain_index then
            (s.chains k).map fun c =>
              c.set_entry idx ((c.get idx).getD (.empty none)).clear
          else s.chains k,
        disk := writeEntryAt s.disk
          ((parent.file_offset_for_entry idx).getD 0)
          (.empty e.next_block) }) := by
    simp only [delete_file, hroot, hfile, if_true]
  have hchainpi : (delete_file s (pre ++ [last])).2.chains pi =
      some (parent.set_entry idx (.empty e.next_block)) := by
    rw [hd]
    simp [hci, hpar, PackBlockChain.get, hget, PackEntry.clear]
  have hs' : ∀ k, (delete_file s (pre ++ [last])).2.chains k =
      if k = pi then some (parent.set_entry idx (.empty e.next_block))
      else s.chains k := by
    intro k
    by_cases hk : k = pi
    · subst hk; rw [hchainpi, if_pos rfl]
    · rw [if_neg hk, hd]
      simp only []
      rw [if_neg (by rw [hci]; exact hk)]
  have huniq' : ∀ j, j < parent.entries.length → j ≠ idx →
      (parent.entries[j]?.bind PackEntry.name) ≠ e.name := by
    intro j hj hne
    rw [hname]
    exact huniq j hj hne
  have hstab := resolve_stable s pi idx parent e (.empty e.next_block) hpar hget
    hfile rfl huniq' (delete_file s (pre ++ [last])).2 hs' pre PK2_ROOT_BLOCK
    pi hres
  have hrep' := resolve_entry_concat (delete_file s (pre ++ [last])).2 pre last
    pi (parent.set_entry idx (.empty e.next_block)) hstab hchainpi
  have hnone : findNamed (parent.set_entry idx (.empty e.next_block)).entries
      (some fname) = none := by
    apply findNamed_eq_none
    intro j e' hj
    rw [entries_set_entry] at hj
    by_cases hji : j = idx
    · subst hji
      by_cases hlt : j < parent.entries.length
      · rw [List.getElem?_set, if_pos rfl, if_pos hlt] at hj
        obtain rfl : PackEntry.empty e.next_block = e' := by simpa using hj
        simp [PackEntry.name]
      · rw [List.getElem?_set, if_pos rfl, if_neg hlt] at hj
        exact Option.noConfusion hj
    · rw [List.getElem?_set_ne fun hh => hji hh.symm] at hj
      have hjlt : j < parent.entries.length := by
        by_contra hge
        rw [List.getElem?_eq_none (by omega)] at hj
        exact Option.noConfusion hj
      have hcontra := huniq j hjlt hji
      rw [hj] at hcontra
      simpa using hcontra
  have hopen : open_file (delete_file s (pre ++ [last])).2 (pre ++ [last]) =
      .error .notFound := by
    simp only [open_file, root_resolve, hrep', hlast, hnone]
  refine ⟨by rw [hd], hchainpi, entries_set_entry parent idx _, ?_, hopen,
    ?_, ?_, ?_, ?_, by rw [hd]⟩
  · rw [hd]
    simp [writeEntryAt]
  · simp only [PackBlockChain.set_entry]
    exact set_entry_blocks_length parent.blocks idx _
  · intro k hk
    rw [hs' k, if_neg hk]
  · intro j hj
    rw [entries_set_entry]
    exact List.getElem?_set_ne fun hh => hj hh.symm
  · intro o ho
    rw [hd]
    simp only [writeEntryAt, if_neg ho]

/-- C5 witness: deleting the file `a` from a fresh archive. -/
theorem c5_delete_file_witness :
    (delete_file stateFileA [cnc "a"]).1 = .ok () ∧
    open_file (delete_file stateFileA [cnc "a"]).2 [cnc "a"] =
      .error .notFound ∧
    (delete_file stateFileA [cnc "a"]).2.file_len = stateFileA.file_len := by
  have h := c5_delete_file stateFileA [] (cnc "a") "a" PK2_ROOT_BLOCK 1
    rootChainA (PackEntry.new_file "a" fTime0 0 0 none) rfl rfl rfl rfl rfl rfl
    (by decide)
  exact ⟨h.1, h.2.2.2.2.1, h.2.2.2.2.2.2.2.2.2⟩

theorem firstEmptyIdx_spec (l : List PackEntry) :
    ∀ i, firstEmptyIdx l = some i →
      ∃ e, l[i]? = some e ∧ e.is_empty = true := by
  induction l with
  | nil => intro i h; simp [firstEmptyIdx] at h
  | cons a as ih =>
    intro i h
    by_cases ha : a.is_empty = true
    · simp only [firstEmptyIdx, if_pos ha, Option.some.injEq] at h
      subst h
      exact ⟨a, by simp, ha⟩
    · simp only [firstEmptyIdx, if_neg ha, Option.map_eq_some'] at h
      obtain ⟨j, hj, rfl⟩ := h
      obtain ⟨e, he, hee⟩ := ih j hj
      exact ⟨e, by simpa using he, hee⟩

theorem set_entry_blocks_cons_head (b0 : PackBlock) (tl : List PackBlock)
    (i : Nat) (e : PackEntry) :
    ∃ b0' tl', PackBlockChain.set_entry_blocks (b0 :: tl) i e = b0' :: tl' ∧
      b0'.offset = b0.offset := by
  unfold PackBlockChain.set_entry_blocks
  by_cases h : i < b0.entries.length
  · exact ⟨{ b0 with entries := b0.entries.set i e }, tl, by simp [h], rfl⟩
  · exact ⟨b0, PackBlockChain.set_entry_blocks tl (i - b0.entries.length) e,
      by simp [h], rfl⟩

theorem wf_set_entry_blocks (bs : List PackBlock) :
    ∀ (i : Nat) (e : PackEntry), (∀ b ∈ bs, b.wf) →
      ∀ b ∈ PackBlockChain.set_entry_blocks bs i e, b.wf := by
  induction bs with
  | nil => intro i e _ b hb; simp [PackBlockChain.set_entry_blocks] at hb
  | cons a as ih =>
    intro i e hwf b hb
    unfold PackBlockChain.set_entry_blocks at hb
    by_cases h : i < a.entries.length
    · rw [if_pos h] at hb
      rcases List.mem_cons.mp hb with rfl | hmem
      · have := hwf a (by simp)
        simp only [PackBlock.wf] at this ⊢
        simpa using this
      · exact hwf b (by simp [hmem])
    · rw [if_neg h] at hb
      rcases List.mem_cons.mp hb with rfl | hmem
      · exact hwf b (by simp)
      · exact ih (i - a.entries.length) e (fun x hx => hwf x (by simp [hx])) b hmem

theorem set_next_block_preserves (e : PackEntry) (n : Nat) :
    (e.set_next_block n).is_dir = e.is_dir ∧
    (e.set_next_block n).pos_children? = e.pos_children? ∧
    (e.set_next_block n).name = e.name ∧
    (e.set_next_block n).is_empty = e.is_empty := by
  cases e <;> simp [PackEntry.set_next_block, PackEntry.is_dir,
    PackEntry.pos_children?, PackEntry.name, PackEntry.is_empty]

theorem entries_length_head (c : PackBlockChain) (b0 : PackBlock)
    (bs : List PackBlock) (hb : c.blocks = b0 :: bs) (hwf : b0.wf) :
    20 ≤ c.entries.length := by
  simp only [PackBlockChain.entries, hb, List.map_cons, List.flatten_cons,
    List.length_append]
  simp only [PackBlock.wf] at hwf
  omega

theorem entries_append_block (bs : List PackBlock) (b : PackBlock) :
    (((bs ++ [b]).map PackBlock.entries).flatten) =
      ((bs.map PackBlock.entries).flatten) ++ b.entries := by
  simp [List.map_append, List.flatten_append]

theorem root_resolve_inversion (s : Pk2) (path : List Component)
    (parent : PackBlockChain) (idx : Nat) (e : PackEntry)
    (h : root_resolve s path = .ok (parent, idx, e)) :
    ∃ p, s.chains p = some parent ∧ parent.entries[idx]? = some e := by
  unfold root_resolve resolve_path_to_entry_and_parent at h
  cases hl : path.getLast? with
  | none => simp only [hl] at h; exact Except.noConfusion h
  | some c =>
    simp only [hl] at h
    cases hr : resolve_path_to_block_chain_index_at s PK2_ROOT_BLOCK
        path.dropLast with
    | error er => simp only [hr] at h; exact Except.noConfusion h
    | ok p =>
      simp only [hr] at h
      cases hp : s.chains p with
      | none => simp only [hp] at h; exact Except.noConfusion h
      | some chain =>
        simp only [hp] at h
        cases hf : findNamed chain.entries c.to_str with
        | none => simp only [hf] at h; exact Except.noConfusion h
        | some pair =>
          obtain ⟨i, e'⟩ := pair
          simp only [hf] at h
          obtain ⟨h1, h2, h3⟩ : chain = parent ∧ i = idx ∧ e' = e := by
            injection h with hh
            have hfst := congrArg Prod.fst hh
            have hsnd := congrArg Prod.snd hh
            exact ⟨hfst, congrArg Prod.fst hsnd, congrArg Prod.snd hsnd⟩
          subst h1 h2 h3
          exact ⟨p, hp, (findNamed_spec _ _ _ _ hf).2⟩

theorem inv_init (t : FILETIME) : ArchiveInv (initState t) := by
  refine ⟨by simp only [initState]; decide, ?_⟩
  intro i c h
  simp only [initState] at h
  by_cases hi : i = PK2_ROOT_BLOCK
  · subst hi
    rw [if_pos rfl] at h
    obtain rfl := Option.some.inj h
    refine ⟨by simp only [initState]; decide, ⟨initRootBlock t, [], rfl, rfl⟩,
      ?_, ?_, fun hne => absurd rfl hne⟩
    · intro b hb
      obtain rfl : b = initRootBlock t := by simpa using hb
      simp [initRootBlock, PackBlock.wf]
    · exact ⟨PackEntry.new_directory "." t PK2_ROOT_BLOCK none, rfl, rfl, rfl, rfl⟩
  · rw [if_neg hi] at h
    exact Option.noConfusion h

theorem inv_update_nondir (s : Pk2) (hinv : ArchiveInv s) (ci idx : Nat)
    (g : PackBlockChain → PackEntry)
    (hold : ∀ c, s.chains ci = some c →
      ∃ eold, c.entries[idx]? = some eold ∧ eold.is_dir = false) :
    ArchiveInv { s with chains := (fun k =>
      if k = ci then Option.map (fun c => c.set_entry idx (g c)) (s.chains k)
      else s.chains k) } := by
  obtain ⟨hrootlen, hch⟩ := hinv
  refine ⟨hrootlen, ?_⟩
  intro i c h
  simp only [] at h
  by_cases hk : i = ci
  · subst hk
    rw [if_pos rfl] at h
    cases hsc : s.chains i with
    | none => rw [hsc] at h; exact Option.noConfusion h
    | some cOld =>
      rw [hsc, Option.map_some'] at h
      obtain rfl := Option.some.inj h
      obtain ⟨hlen, ⟨b0, bs, hb, hoff⟩, hwf, hdot, hpar⟩ := hch i cOld hsc
      obtain ⟨eold, he, hnd⟩ := hold cOld hsc
      obtain ⟨e0, he0, hn0, hd0, hp0⟩ := hdot
      have hidx0 : idx ≠ 0 := by
        intro hh
        subst hh
        rw [PackBlockChain.get] at he0
        have heq : eold = e0 := Option.some.inj (he.symm.trans he0)
        rw [heq, hd0] at hnd
        exact Bool.noConfusion hnd
      obtain ⟨b0', tl', hset, hoff'⟩ :=
        set_entry_blocks_cons_head b0 bs idx (g cOld)
      refine ⟨hlen, ⟨b0', tl', ?_, hoff'.trans hoff⟩, ?_, ?_, ?_⟩
      · simp only [PackBlockChain.set_entry, hb, hset]
      · intro b hb'
        simp only [PackBlockChain.set_entry] at hb'
        exact wf_set_entry_blocks cOld.blocks idx (g cOld) hwf b hb'
      · refine ⟨e0, ?_, hn0, hd0, hp0⟩
        rw [PackBlockChain.get, entries_set_entry,
          List.getElem?_set_ne hidx0]
        rw [PackBlockChain.get] at he0
        exact he0
      · intro hne
        obtain ⟨e1, p, he1, hn1, hd1, hp1, pc, hpc, j, e', hj, hdj, hpj⟩ :=
          hpar hne
        have hidx1 : idx ≠ 1 := by
          intro hh
          subst hh
          rw [PackBlockChain.get] at he1
          have heq : eold = e1 := Option.some.inj (he.symm.trans he1)
          rw [heq, hd1] at hnd
          exact Bool.noConfusion hnd
        refine ⟨e1, p, ?_, hn1, hd1, hp1, ?_⟩
        · rw [PackBlockChain.get, entries_set_entry,
            List.getElem?_set_ne hidx1]
          rw [PackBlockChain.get] at he1
          exact he1
        · by_cases hpci : p = i
          · subst hpci
            have hpceq : pc = cOld := Option.some.inj (hpc.symm.trans hsc)
            subst hpceq
            have hji : j ≠ idx := by
              intro hh
              subst hh
              have heq : e' = eold := Option.some.inj (hj.symm.trans he)
              rw [heq, hnd] at hdj
              exact Bool.noConfusion hdj
            refine ⟨pc.set_entry idx (g pc), by simp [hpc], j, e', ?_, hdj, hpj⟩
            rw [entries_set_entry, List.getElem?_set_ne fun hh => hji hh.symm]
            exact hj
          · exact ⟨pc, by simp [if_neg hpci, hpc], j, e', hj, hdj, hpj⟩
  · rw [if_neg hk] at h
    obtain ⟨hlen, hhead, hwf, hdot, hpar⟩ := hch i c h
    refine ⟨hlen, hhead, hwf, hdot, ?_⟩
    intro hne
    obtain ⟨e1, p, he1, hn1, hd1, hp1, pc, hpc, j, e', hj, hdj, hpj⟩ := hpar hne
    refine ⟨e1, p, he1, hn1, hd1, hp1, ?_⟩
    by_cases hpci : p = ci
    · subst hpci
      obtain ⟨eold, he, hnd⟩ := hold pc hpc
      have hji : j ≠ idx := by
        intro hh
        subst hh
        have heq : e' = eold := Option.some.inj (hj.symm.trans he)
        rw [heq, hnd] at hdj
        exact Bool.noConfusion hdj
      refine ⟨pc.set_entry idx (g pc), by simp [hpc], j, e', ?_, hdj, hpj⟩
      rw [entries_set_entry, List.getElem?_set_ne fun hh => hji hh.symm]
      exact hj
    · exact ⟨pc, by simp [if_neg hpci, hpc], j, e', hj, hdj, hpj⟩

theorem inv_create_new_block (s : Pk2) (hinv : ArchiveInv s) (cur : Nat)
    (chain : PackBlockChain) (hsc : s.chains cur = some chain) :
    ArchiveInv (create_new_block s cur chain).2.2 ∧
    (create_new_block s cur chain).2.2.chains cur =
      some (create_new_block s cur chain).2.1 ∧
    (create_new_block s cur chain).2.1.chain_index = chain.chain_index ∧
    (create_new_block s cur chain).2.1.entries[(create_new_block s cur chain).1]? =
      some (PackEntry.empty none) := by
  obtain ⟨hrootlen, hch⟩ := hinv
  obtain ⟨hlen, ⟨b0, bs, hb, hoff⟩, hwf, hdot, hpar⟩ := hch cur chain hsc
  have hwfb0 : b0.wf := hwf b0 (by simp [hb])
  have hlenge : 20 ≤ chain.entries.length := entries_length_head chain b0 bs hb hwfb0
  have hc' : (create_new_block s cur chain).2.1 =
      ⟨PackBlockChain.set_entry_blocks chain.blocks (chain.entries.length - 1)
        (((chain.get (chain.entries.length - 1)).getD (.empty none)).set_next_block
          s.file_len) ++ [PackBlock.new s.file_len]⟩ := rfl
  have hch2 : (create_new_block s cur chain).2.2.chains =
      fun k => if k = cur then some (create_new_block s cur chain).2.1
        else s.chains k := rfl
  have hfl : (create_new_block s cur chain).2.2.file_len =
      s.file_len + PK2_BLOCK_SIZE := rfl
  have hA : (create_new_block s cur chain).2.1.entries =
      chain.entries.set (chain.entries.length - 1)
        (((chain.get (chain.entries.length - 1)).getD (.empty none)).set_next_block
          s.file_len) ++ (PackBlock.new s.file_len).entries := by
    rw [hc']
    show (PackBlockChain.entries _) = _
    simp only [PackBlockChain.entries]
    rw [entries_append_block, entries_set_entry_blocks]
  have hdirpres : ∀ (j : Nat) (e' : PackEntry), chain.entries[j]? = some e' →
      e'.is_dir = true →
      ∃ e'' : PackEntry,
        (create_new_block s cur chain).2.1.entries[j]? = some e'' ∧
        e''.is_dir = true ∧ e''.pos_children? = e'.pos_children? := by
    intro j e' hj hd
    have hjlt : j < chain.entries.length := by
      by_contra hge
      rw [List.getElem?_eq_none (by omega)] at hj
      exact Option.noConfusion hj
    rw [hA]
    by_cases hjl : j = chain.entries.length - 1
    · subst hjl
      refine ⟨e'.set_next_block s.file_len, ?_, ?_, ?_⟩
      · rw [List.getElem?_append_left (by rw [List.length_set]; exact hjlt),
          List.getElem?_set, if_pos rfl, if_pos hjlt]
        rw [PackBlockChain.get, hj]
        rfl
      · exact (set_next_block_preserves e' s.file_len).1.trans hd
      · exact (set_next_block_preserves e' s.file_len).2.1
    · refine ⟨e', ?_, hd, rfl⟩
      rw [List.getElem?_append_left (by rw [List.length_set]; exact hjlt),
        List.getElem?_set_ne fun hh => hjl hh.symm]
      exact hj
  have hdot' : ChainDotEntry cur (create_new_block s cur chain).2.1 := by
    obtain ⟨e0, he0, hn0, hd0, hp0⟩ := hdot
    rw [PackBlockChain.get] at he0
    refine ⟨e0, ?_, hn0, hd0, hp0⟩
    rw [PackBlockChain.get, hA,
      List.getElem?_append_left (by rw [List.length_set]; omega),
      List.getElem?_set_ne (by omega)]
    exact he0
  refine ⟨⟨by rw [hfl]; omega, ?_⟩, ?_, ?_, ?_⟩
  · intro i c h
    rw [hch2] at h
    simp only [] at h
    by_cases hk : i = cur
    · subst hk
      rw [if_pos rfl] at h
      obtain rfl := Option.some.inj h
      refine ⟨by rw [hfl]; omega, ?_, ?_, hdot', ?_⟩
      · obtain ⟨b0', tl', hset, hoff'⟩ := set_entry_blocks_cons_head b0 bs
          (chain.entries.length - 1)
          (((chain.get (chain.entries.length - 1)).getD (.empty none)).set_next_block
            s.file_len)
        refine ⟨b0', tl' ++ [PackBlock.new s.file_len], ?_, hoff'.trans hoff⟩
        rw [hc']
        show PackBlockChain.set_entry_blocks chain.blocks _ _ ++ _ = _
        rw [hb, hset, List.cons_append]
      · intro b hb'
        rw [hc'] at hb'
        show b.wf
        rcases List.mem_append.mp hb' with hmem | hmem
        · exact wf_set_entry_blocks chain.blocks _ _ hwf b hmem
        · obtain rfl : b = PackBlock.new s.file_len := by simpa using hmem
          simp [PackBlock.new, PackBlock.wf]
      · intro hne
        obtain ⟨e1, p, he1, hn1, hd1, hp1, pc, hpc, j, e', hj, hdj, hpj⟩ :=
          hpar hne
        rw [PackBlockChain.get] at he1
        refine ⟨e1, p, ?_, hn1, hd1, hp1, ?_⟩
        · rw [PackBlockChain.get, hA,
            List.getElem?_append_left (by rw [List.length_set]; omega),
            List.getElem?_set_ne (by omega)]
          exact he1
        · by_cases hpcur : p = i
          · subst hpcur
            have hpceq : pc = chain := Option.some.inj (hpc.symm.trans hsc)
            subst hpceq
            obtain ⟨e'', hj', hd'', hp''⟩ := hdirpres j e' hj hdj
            refine ⟨(create_new_block s _ pc).2.1, ?_, j, e'', hj', hd'',
              hp''.trans hpj⟩
            simp [hch2]
          · refine ⟨pc, ?_, j, e', hj, hdj, hpj⟩
            simp only [hch2]
            rw [if_neg hpcur]
            exact hpc
    · rw [if_neg hk] at h
      obtain ⟨hlen', hhead', hwf', hdot'', hpar'⟩ := hch i c h
      refine ⟨by rw [hfl]; omega, hhead', hwf', hdot'', ?_⟩
      intro hne
      obtain ⟨e1, p, he1, hn1, hd1, hp1, pc, hpc, j, e', hj, hdj, hpj⟩ :=
        hpar' hne
      refine ⟨e1, p, he1, hn1, hd1, hp1, ?_⟩
      by_cases hpcur : p = cur
      · subst hpcur
        have hpceq : pc = chain := Option.some.inj (hpc.symm.trans hsc)
        subst hpceq
        obtain ⟨e'', hj', hd'', hp''⟩ := hdirpres j e' hj hdj
        refine ⟨(create_new_block s _ pc).2.1, ?_, j, e'', hj', hd'',
          hp''.trans hpj⟩
        simp [hch2]
      · refine ⟨pc, ?_, j, e', hj, hdj, hpj⟩
        simp only [hch2]
        rw [if_neg hpcur]
        exact hpc
  · simp [hch2]
  · rw [hc', PackBlockChain.chain_index, PackBlockChain.chain_index]
    show ((PackBlockChain.set_entry_blocks chain.blocks _ _ ++
      [PackBlock.new s.file_len]).head?.map PackBlock.offset).getD 0 = _
    rw [hb]
    obtain ⟨b0', tl', hset, hoff'⟩ := set_entry_blocks_cons_head b0 bs
      (chain.entries.length - 1)
      (((chain.get (chain.entries.length - 1)).getD (.empty none)).set_next_block
        s.file_len)
    rw [hset, List.cons_append]
    simp [hoff']
  · rw [hA]
    have h1 : (create_new_block s cur chain).1 = chain.entries.length := rfl
    rw [h1, List.getElem?_append_right (by rw [List.length_set]),
      List.length_set, Nat.sub_self]
    simp [PackBlock.new]

theorem empty_not_dir (e : PackEntry) (h : e.is_empty = true) :
    e.is_dir = false := by
  cases e <;> simp_all [PackEntry.is_empty, PackEntry.is_dir]

theorem chain_index_of_inv (s : Pk2) (hinv : ArchiveInv s) (cur : Nat)
    (chain : PackBlockChain) (hsc : s.chains cur = some chain) :
    chain.chain_index = cur := by
  obtain ⟨-, ⟨b0, bs, hb, hoff⟩, -, -, -⟩ := hinv.2 cur chain hsc
  rw [PackBlockChain.chain_index, hb]
  simp [hoff]

theorem inv_create_new_block_chain (s : Pk2) (hinv : ArchiveInv s) (cur : Nat)
    (chain : PackBlockChain) (dirName : String) (entryIdx : Nat) (t : FILETIME)
    (hsc : s.chains cur = some chain)
    (hemp : ∃ eold, chain.entries[entryIdx]? = some eold ∧
      eold.is_empty = true) :
    ArchiveInv (create_new_block_chain s cur chain dirName entryIdx t).2.2 := by
  obtain ⟨hrootlen, hch⟩ := hinv
  obtain ⟨hlen, ⟨b0, bs, hb, hoff⟩, hwf, hdot, hpar⟩ := hch cur chain hsc
  obtain ⟨eold, he, hee⟩ := hemp
  have hnd : eold.is_dir = false := empty_not_dir eold hee
  have hidxlt : entryIdx < chain.entries.length := by
    by_contra hge
    rw [List.getElem?_eq_none (by omega)] at he
    exact Option.noConfusion he
  have hcurne : cur ≠ s.file_len := by omega
  have hcix : chain.chain_index = cur := by
    rw [PackBlockChain.chain_index, hb]
    simp [hoff]
  have hch2 : (create_new_block_chain s cur chain dirName entryIdx t).2.2.chains =
      fun k =>
        if k = s.file_len then
          some (create_new_block_chain s cur chain dirName entryIdx t).2.1
        else if k = cur then
          some (chain.set_entry entryIdx
            (PackEntry.new_directory dirName t s.file_len
              ((chain.get entryIdx).getD (.empty none)).next_block))
        else s.chains k := rfl
  have hc' : (create_new_block_chain s cur chain dirName entryIdx t).2.1 =
      ⟨[⟨s.file_len,
          PackEntry.new_directory "." t s.file_len none ::
          PackEntry.new_directory ".." t chain.chain_index none ::
          List.replicate 18 (PackEntry.empty none)⟩]⟩ := rfl
  have hfl : (create_new_block_chain s cur chain dirName entryIdx t).2.2.file_len =
      s.file_len + PK2_BLOCK_SIZE := rfl
  have hde : (chain.set_entry entryIdx
      (PackEntry.new_directory dirName t s.file_len
        ((chain.get entryIdx).getD (.empty none)).next_block)).entries[entryIdx]? =
      some (PackEntry.new_directory dirName t s.file_len
        ((chain.get entryIdx).getD (.empty none)).next_block) := by
    rw [entries_set_entry, List.getElem?_set, if_pos rfl, if_pos hidxlt]
  have hidx0 : entryIdx ≠ 0 ∧ entryIdx ≠ 1 ∨ True := Or.inr trivial
  refine ⟨by rw [hfl]; omega, ?_⟩
  intro i c h
  rw [hch2] at h
  simp only [] at h
  by_cases hkn : i = s.file_len
  · subst hkn
    rw [if_pos rfl] at h
    obtain rfl := Option.some.inj h
    refine ⟨by simp only [hfl, PK2_BLOCK_SIZE]; omega,
      ?_, ?_, ?_, fun _ => ?_⟩
    · rw [hc']
      exact ⟨_, [], rfl, rfl⟩
    · intro b hb'
      rw [hc'] at hb'
      obtain rfl : b = ⟨s.file_len,
          PackEntry.new_directory "." t s.file_len none ::
          PackEntry.new_directory ".." t chain.chain_index none ::
          List.replicate 18 (PackEntry.empty none)⟩ := by
        simpa using hb'
      simp [PackBlock.wf]
    · refine ⟨PackEntry.new_directory "." t s.file_len none, ?_, rfl, rfl, rfl⟩
      rw [hc']
      rfl
    · refine ⟨PackEntry.new_directory ".." t chain.chain_index none,
        chain.chain_index, ?_, rfl, rfl, rfl, ?_⟩
      · rw [hc']
        rfl
      · rw [hcix]
        refine ⟨chain.set_entry entryIdx
          (PackEntry.new_directory dirName t s.file_len
            ((chain.get entryIdx).getD (.empty none)).next_block), ?_,
          entryIdx,
          PackEntry.new_directory dirName t s.file_len
            ((chain.get entryIdx).getD (.empty none)).next_block,
          hde, rfl, rfl⟩
        rw [hch2]
        simp only []
        simp [hcurne]
  · rw [if_neg hkn] at h
    by_cases hk : i = cur
    · subst hk
      rw [if_pos rfl] at h
      obtain rfl := Option.some.inj h
      obtain ⟨e0, he0, hn0, hd0, hp0⟩ := hdot
      have hidx0 : entryIdx ≠ 0 := by
        intro hh
        subst hh
        rw [PackBlockChain.get] at he0
        have heq : eold = e0 := Option.some.inj (he.symm.trans he0)
        rw [heq, hd0] at hnd
        exact Bool.noConfusion hnd
      obtain ⟨b0', tl', hset, hoff'⟩ := set_entry_blocks_cons_head b0 bs entryIdx
        (PackEntry.new_directory dirName t s.file_len
          ((chain.get entryIdx).getD (.empty none)).next_block)
      refine ⟨by rw [hfl]; omega, ?_, ?_, ?_, ?_⟩
      · refine ⟨b0', tl', ?_, hoff'.trans hoff⟩
        show PackBlockChain.set_entry_blocks chain.blocks _ _ = _
        rw [hb, hset]
      · intro b hb'
        exact wf_set_entry_blocks chain.blocks _ _ hwf b hb'
      · refine ⟨e0, ?_, hn0, hd0, hp0⟩
        rw [PackBlockChain.get, entries_set_entry,
          List.getElem?_set_ne hidx0]
        rw [PackBlockChain.get] at he0
        exact he0
      · intro hne
        obtain ⟨e1, p, he1, hn1, hd1, hp1, pc, hpc, j, e', hj, hdj, hpj⟩ :=
          hpar hne
        have hidx1 : entryIdx ≠ 1 := by
          intro hh
          subst hh
          rw [PackBlockChain.get] at he1
          have heq : eold = e1 := Option.some.inj (he.symm.trans he1)
          rw [heq, hd1] at hnd
          exact Bool.noConfusion hnd
        refine ⟨e1, p, ?_, hn1, hd1, hp1, ?_⟩
        · rw [PackBlockChain.get, entries_set_entry,
            List.getElem?_set_ne hidx1]
          rw [PackBlockChain.get] at he1
          exact he1
        · have hpne : p ≠ s.file_len := by
            have := hch p pc hpc
            omega
          by_cases hpcur : p = i
          · subst hpcur
            have hpceq : pc = chain := Option.some.inj (hpc.symm.trans hsc)
            subst hpceq
            have hji : j ≠ entryIdx := by
              intro hh
              subst hh
              have heq : e' = eold := Option.some.inj (hj.symm.trans he)
              rw [heq, hnd] at hdj
              exact Bool.noConfusion hdj
            refine ⟨pc.set_entry entryIdx
              (PackEntry.new_directory dirName t s.file_len
                ((pc.get entryIdx).getD (.empty none)).next_block), ?_,
              j, e', ?_, hdj, hpj⟩
            · rw [hch2]
              simp only []
              simp [hpne]
            · rw [entries_set_entry, List.getElem?_set_ne fun hh => hji hh.symm]
              exact hj
          · refine ⟨pc, ?_, j, e', hj, hdj, hpj⟩
            rw [hch2]
            simp only []
            rw [if_neg hpne, if_neg hpcur]
            exact hpc
    · rw [if_neg hk] at h
      obtain ⟨hlen', hhead', hwf', hdot'', hpar'⟩ := hch i c h
      refine ⟨by rw [hfl]; omega, hhead', hwf', hdot'', ?_⟩
      intro hne
      obtain ⟨e1, p, he1, hn1, hd1, hp1, pc, hpc, j, e', hj, hdj, hpj⟩ :=
        hpar' hne
      refine ⟨e1, p, he1, hn1, hd1, hp1, ?_⟩
      have hpne : p ≠ s.file_len := by
        have := hch p pc hpc
        omega
      by_cases hpcur : p = cur
      · subst hpcur
        have hpceq : pc = chain := Option.some.inj (hpc.symm.trans hsc)
        subst hpceq
        have hji : j ≠ entryIdx := by
          intro hh
          subst hh
          have heq : e' = eold := Option.some.inj (hj.symm.trans he)
          rw [heq, hnd] at hdj
          exact Bool.noConfusion hdj
        refine ⟨pc.set_entry entryIdx
          (PackEntry.new_directory dirName t s.file_len
            ((pc.get entryIdx).getD (.empty none)).next_block), ?_,
          j, e', ?_, hdj, hpj⟩
        · rw [hch2]
          simp only []
          simp [hpne]
        · rw [entries_set_entry, List.getElem?_set_ne fun hh => hji hh.symm]
          exact hj
      · refine ⟨pc, ?_, j, e', hj, hdj, hpj⟩
        rw [hch2]
        simp only []
        rw [if_neg hpne, if_neg hpcur]
        exact hpc

theorem create_entry_go_inv (t : FILETIME) :
    ∀ (rest : List Component) (s : Pk2) (cur : Nat), ArchiveInv s →
      ArchiveInv (create_entry_go t s cur rest).2 ∧
      (∀ ci ei, (create_entry_go t s cur rest).1 = .ok (ci, ei) →
        ∃ ch eold, (create_entry_go t s cur rest).2.chains ci = some ch ∧
          ch.entries[ei]? = some eold ∧ eold.is_empty = true) := by
  intro rest
  induction rest with
  | nil =>
    intro s cur hinv
    exact ⟨hinv, fun ci ei h => Except.noConfusion h⟩
  | cons c cs ih =>
    intro s cur hinv
    cases c with
    | curDir => exact ih s cur hinv
    | parentDir =>
      cases hch : s.chains cur with
      | none =>
        have heq : create_entry_go t s cur (.parentDir :: cs) =
            (.error .invalidChainIndex, s) := by
          simp [create_entry_go, hch]
        rw [heq]
        exact ⟨hinv, fun ci ei h => Except.noConfusion h⟩
      | some chain =>
        cases hpl : parentLinkPos chain.entries with
        | none =>
          have heq : create_entry_go t s cur (.parentDir :: cs) =
              (.error .invalidPath, s) := by
            simp [create_entry_go, hch, hpl]
          rw [heq]
          exact ⟨hinv, fun ci ei h => Except.noConfusion h⟩
        | some p =>
          have heq : create_entry_go t s cur (.parentDir :: cs) =
              create_entry_go t s p cs := by
            simp [create_entry_go, hch, hpl]
          rw [heq]
          exact ih s p hinv
    | normal pcomp =>
      cases hch : s.chains cur with
      | none =>
        have heq : create_entry_go t s cur (.normal pcomp :: cs) =
            (.error .invalidChainIndex, s) := by
          simp [create_entry_go, hch]
        rw [heq]
        exact ⟨hinv, fun ci ei h => Except.noConfusion h⟩
      | some chain =>
        have hcix : chain.chain_index = cur :=
          chain_index_of_inv s hinv cur chain hch
        cases hfe : firstEmptyIdx chain.entries with
        | some i =>
          obtain ⟨eemp, hemp, hempe⟩ := firstEmptyIdx_spec chain.entries i hfe
          cases cs with
          | nil =>
            have heq : create_entry_go t s cur [.normal pcomp] =
                (.ok (chain.chain_index, i), s) := by
              simp [create_entry_go, hch, hfe]
            rw [heq]
            refine ⟨hinv, ?_⟩
            intro ci ei h
            obtain ⟨h1, h2⟩ : chain.chain_index = ci ∧ i = ei := by
              injection h with hh
              exact ⟨congrArg Prod.fst hh, congrArg Prod.snd hh⟩
            subst h1 h2
            rw [hcix]
            exact ⟨chain, eemp, hch, hemp, hempe⟩
          | cons c2 cs2 =>
            cases hts : pcomp.to_str with
            | none =>
              have heq : create_entry_go t s cur (.normal pcomp :: c2 :: cs2) =
                  (.error .nonUnicodePath, s) := by
                simp [create_entry_go, hch, hfe, hts]
              rw [heq]
              exact ⟨hinv, fun ci ei h => Except.noConfusion h⟩
            | some dirName =>
              rcases hr2 : create_new_block_chain s cur chain dirName i t with
                ⟨newOff, nc, s2⟩
              have heq : create_entry_go t s cur (.normal pcomp :: c2 :: cs2) =
                  create_entry_go t s2 newOff (c2 :: cs2) := by
                simp [create_entry_go, hch, hfe, hts, hr2]
              rw [heq]
              have hinv2 : ArchiveInv s2 := by
                have := inv_create_new_block_chain s hinv cur chain dirName i t
                  hch ⟨eemp, hemp, hempe⟩
                rw [hr2] at this
                exact this
              exact ih s2 newOff hinv2
        | none =>
          rcases hr : create_new_block s cur chain with ⟨idx, chain1, s1⟩
          have hres := inv_create_new_block s hinv cur chain hch
          rw [hr] at hres
          obtain ⟨hinv1, hsc1, hcix1, hent1⟩ := hres
          cases cs with
          | nil =>
            have heq : create_entry_go t s cur [.normal pcomp] =
                (.ok (chain1.chain_index, idx), s1) := by
              simp [create_entry_go, hch, hfe, hr]
            rw [heq]
            refine ⟨hinv1, ?_⟩
            intro ci ei h
            obtain ⟨h1, h2⟩ : chain1.chain_index = ci ∧ idx = ei := by
              injection h with hh
              exact ⟨congrArg Prod.fst hh, congrArg Prod.snd hh⟩
            subst h1 h2
            rw [hcix1, hcix]
            exact ⟨chain1, .empty none, hsc1, hent1, rfl⟩
          | cons c2 cs2 =>
            cases hts : pcomp.to_str with
            | none =>
              have heq : create_entry_go t s cur (.normal pcomp :: c2 :: cs2) =
                  (.error .nonUnicodePath, s1) := by
                simp [create_entry_go, hch, hfe, hr, hts]
              rw [heq]
              exact ⟨hinv1, fun ci ei h => Except.noConfusion h⟩
            | some dirName =>
              rcases hr2 : create_new_block_chain s1 cur chain1 dirName idx t with
                ⟨newOff, nc, s2⟩
              have heq : create_entry_go t s cur (.normal pcomp :: c2 :: cs2) =
                  create_entry_go t s2 newOff (c2 :: cs2) := by
                simp [create_entry_go, hch, hfe, hr, hts, hr2]
              rw [heq]
              have hinv2 : ArchiveInv s2 := by
                have := inv_create_new_block_chain s1 hinv1 cur chain1 dirName
                  idx t hsc1 ⟨.empty none, hent1, rfl⟩
                rw [hr2] at this
                exact this
              exact ih s2 newOff hinv2

theorem inv_create_file (t : FILETIME) (s : Pk2) (path : List Component)
    (hinv : ArchiveInv s) : ArchiveInv (create_file t s path).2 := by
  cases hfn : fileNameOf path with
  | none =>
    have heq : create_file t s path = (.error .nonUnicodePath, s) := by
      simp only [create_file, hfn]
    rw [heq]
    exact hinv
  | some fname =>
    cases hv : validate_dir_path_until s PK2_ROOT_BLOCK path with
    | error e =>
      have heq : create_file t s path = (.error e, s) := by
        simp only [create_file, hfn, hv]
      rw [heq]
      exact hinv
    | ok pr =>
      obtain ⟨start, rest⟩ := pr
      have hgo := create_entry_go_inv t rest s start hinv
      rcases hg : create_entry_go t s start rest with ⟨res, s'⟩
      rw [hg] at hgo
      obtain ⟨hinv', hpost⟩ := hgo
      cases res with
      | error e =>
        have heq : create_file t s path = (.error e, s') := by
          simp only [create_file, hfn, hv, hg]
        rw [heq]
        exact hinv'
      | ok pr2 =>
        obtain ⟨ci, ei⟩ := pr2
        obtain ⟨ch, eold, hcc, hce, hcee⟩ := hpost ci ei rfl
        have heq : create_file t s path = (.ok (ci, ei), { s' with
            chains := (fun k =>
              if k = ci then
                Option.map (fun c => c.set_entry ei
                  (PackEntry.new_file fname t 0 0
                    (((c.get ei).getD (.empty none)).next_block))) (s'.chains k)
              else s'.chains k) }) := by
          simp only [create_file, hfn, hv, hg]
        rw [heq]
        exact inv_update_nondir s' hinv' ci ei
          (fun c => PackEntry.new_file fname t 0 0
            (((c.get ei).getD (.empty none)).next_block))
          (fun c hc => ⟨eold, by rw [Option.some.inj (hcc.symm.trans hc)] at hce; exact hce,
            by rw [Option.some.inj (hcc.symm.trans hc)] at hce; exact empty_not_dir eold hcee⟩)

theorem inv_delete_file_op (s : Pk2) (path : List Component)
    (hinv : ArchiveInv s) : ArchiveInv (delete_file s path).2 := by
  cases hr : root_resolve s path with
  | error e =>
    have heq : delete_file s path = (.error e, s) := by
      simp only [delete_file, hr]
    rw [heq]
    exact hinv
  | ok tr =>
    obtain ⟨parent, idx, e⟩ := tr
    by_cases hf : e.is_file = true
    · obtain ⟨pidx, hpc, hpe⟩ := root_resolve_inversion s path parent idx e hr
      have hcix : parent.chain_index = pidx :=
        chain_index_of_inv s hinv pidx parent hpc
      have heq : delete_file s path = (.ok (), { s with
          chains := (fun k =>
            if k = parent.chain_index then
              Option.map (fun c => c.set_entry idx
                ((c.get idx).getD (.empty none)).clear) (s.chains k)
            else s.chains k),
          disk := writeEntryAt s.disk
            ((parent.file_offset_for_entry idx).getD 0)
            (.empty e.next_block) }) := by
        simp only [delete_file, hr, hf, if_true]
      rw [heq]
      exact inv_update_nondir s hinv parent.chain_index idx
        (fun c => ((c.get idx).getD (.empty none)).clear)
        (fun c hc => by
          rw [hcix] at hc
          obtain rfl := Option.some.inj (hpc.symm.trans hc)
          refine ⟨e, hpe, ?_⟩
          cases e <;> simp_all [PackEntry.is_file, PackEntry.is_dir])
    · have heq : delete_file s path = (.error .expectedFile, s) := by
        simp only [delete_file, hr]
        simp [hf]
      rw [heq]
      exact hinv

theorem inv_reachable (s : Pk2) (h : Reachable s) : ArchiveInv s := by
  induction h with
  | init t => exact inv_init t
  | createStep t path hs ih => exact inv_create_file t _ path ih
  | deleteStep path hs ih => exact inv_delete_file_op _ path ih

/-- C4: the claim states every directory chain of a library-produced
archive carries both the `"."` self entry at index 0 and a `".."` parent
entry at index 1, with the root chain's `".."` pointing back to the root.
Counterexample: `_create_impl` writes only entry 0 (`"."`) into the root
block, so in a freshly created archive the root chain's entry 1 is Empty,
not a `".."` Directory. -/
theorem c4_counterexample :
    (initState fTime0).chains PK2_ROOT_BLOCK = some ⟨[initRootBlock fTime0]⟩ ∧
    (⟨[initRootBlock fTime0]⟩ : PackBlockChain).get 1 =
      some (PackEntry.empty none) ∧
    (PackEntry.empty none).is_dir = false := ⟨rfl, rfl, rfl⟩

/-- C4 (amended): in every archive reachable by `create_new` followed by
any sequence of `create_file` / `delete_file` calls, every loaded chain's
entry 0 is a Directory named `"."` whose `pos_children` is the chain's own
index, and every NON-ROOT chain's entry 1 is a Directory named `".."`
whose `pos_children` is the index of a loaded chain holding a directory
entry that points at this chain (its parent).  The root chain carries no
`".."` entry. -/
theorem c4_amended (s : Pk2) (hr : Reachable s) :
    ∀ i c, s.chains i = some c →
      ChainDotEntry i c ∧ (i ≠ PK2_ROOT_BLOCK → ChainParentEntry s i c) := by
  have hinv := inv_reachable s hr
  intro i c h
  obtain ⟨-, -, -, hdot, hpar⟩ := hinv.2 i c h
  exact ⟨hdot, hpar⟩

/-- C4 (amended) witness at the freshly created archive. -/
theorem c4_amended_witness :
    (initState fTime0).chains PK2_ROOT_BLOCK = some ⟨[initRootBlock fTime0]⟩ ∧
    ChainDotEntry PK2_ROOT_BLOCK ⟨[initRootBlock fTime0]⟩ :=
  ⟨rfl, (c4_amended (initState fTime0) (Reachable.init fTime0) PK2_ROOT_BLOCK
    ⟨[initRootBlock fTime0]⟩ rfl).1⟩
